import Mathlib

/-!
# Parallel sieve of Eratosthenes (`sieve.c`): embedding and verification

The C program is embedded as Lean functions.

* `int`.  The type `int` has 32 bits.  The value of an `int` expression is its mathematical
  value reduced into `[-2^31, 2^31)` by `wrapInt` (two's complement): `largest_number + 1`,
  `base_number * base_number` and `i + base_number` are all wrapped.  The index `i` of
  `computeMultiples` is an `Int`, and a store at a negative index is the fault
  `Fault.outOfBounds`.  Three counters are kept in `Nat` without wrapping because the loop
  guards keep them in range: `lowest_prime += 2` runs only while `lowest_prime` is below the
  scan bound, which is at most 46341; `i += 2` in `printPrimes` runs only while the odd `i` is
  below `length ≤ 2^31 - 1`; the slot counter `i++` runs only while `i < num_threads`.
* The arithmetic of a run stays within `int` when
  `largest_number + ceil(sqrt(largest_number + 1)) ≤ 2^31 - 1` (`intMax`): every statement
  about `findPrimesParallel` that needs the arithmetic to be exact carries this hypothesis,
  and every statement about `computeMultiples` alone carries
  `base_number * base_number ≤ intMax` and `largest_number + base_number ≤ intMax`.
* The flag array `int *numbers` is a `List Nat` holding `0` and `1`; every read and write is
  bounds-checked and an access outside the array is the fault `Fault.outOfBounds`.
* Every loop takes a `fuel` argument bounding its number of iterations; a loop
  that needs more iterations than `fuel` yields `Fault.outOfFuel`.  A theorem
  saying that the code returns shows `Except.ok` for all large enough fuel; a
  theorem saying that the code never returns shows `Fault.outOfFuel` for every
  fuel.
* `(int) ceil(sqrt(x))` is exact on non-negative `int` arguments and is embedded as the least
  natural number whose square is at least `x`; for a negative argument (reached only when
  `largest_number + 1` wraps) `sqrt` yields a NaN, whose conversion is taken to be `-2^31`.
  The theorems `main_at_intMax`, `computeMultiples_at_65536` and `computeMultiples_at_46341`
  evaluate three runs in which an `int` expression wraps.
* Threads: `pthread_create` is taken to succeed.  A worker created in a round
  runs `computeMultiples` at some time between its creation and the join at the
  end of the round.  The embedding keeps two arrays during a round: `snapshot`,
  the array as it was when the round began, and `numbers`, the array with the
  writes of every worker created so far completed.  When the scheduler reads
  `numbers[lowest_prime]` while workers are in flight, it sees the one or the
  other; which one is decided by a schedule `vis : Nat → Bool` indexed by the
  position read (each position is read at most once in a run).  Because workers
  only store `0`, the value at one position is always one of these two.
  The schedule `eager` (`fun _ => true`) is the run in which each worker finishes
  as soon as it is created, `deferred` (`fun _ => false`) the run in which workers
  take effect at the join only.
* `findPrimesParallelRun` returns, next to the array, a trace of the run: for each
  round the bases of the workers dispatched and the reads of the scheduler, each
  read with the number of workers in flight at that moment.  The trace is not part
  of the program; the statements about rounds, bases and reads are statements
  about it.
* The namespace `Exact` holds the same loops with the arithmetic carried out in `Nat`,
  without wrapping.  They are not the embedding: they are the reference the proofs go
  through.  The lemmas `*_eq_exact` show that the embedded functions agree with them under
  the range hypotheses above, and the invariants are established on the reference loops.
-/

namespace Sieve

/-- Ways in which a run of the embedded program fails to produce a value. -/
inductive Fault where
  | outOfFuel
  | outOfBounds
  deriving DecidableEq

deriving instance DecidableEq for Except

/-- The largest value of the type `int`: `2^31 - 1`. -/
def intMax : Nat := 2147483647

/-- The `int` value of an expression whose mathematical value is `x`: the representative of
`x` modulo `2^32` in `[-2^31, 2^31)`. -/
def wrapInt (x : Int) : Int := (x + 2147483648) % 4294967296 - 2147483648

/-- The read `numbers[i]`; an index outside the array is the fault `outOfBounds`. -/
def readAt (numbers : List Nat) (i : Int) : Except Fault Nat :=
  if i < 0 then .error .outOfBounds
  else
    match numbers[i.toNat]? with
    | some v => .ok v
    | none => .error .outOfBounds

/-- The write `numbers[i] = v`: the array with position `i` replaced, or the fault
`outOfBounds` when the array has no position `i`. -/
def writeAt (numbers : List Nat) (i : Int) (v : Nat) : Except Fault (List Nat) :=
  if i < 0 then .error .outOfBounds
  else if i.toNat < numbers.length then .ok (numbers.set i.toNat v)
  else .error .outOfBounds

/-- Search loop behind `ceilSqrt`. -/
def ceilSqrtFrom (n : Nat) : Nat → Nat → Nat
  | 0, r => r
  | fuel + 1, r => if n ≤ r * r then r else ceilSqrtFrom n fuel (r + 1)

/-- The value of `ceil(sqrt(n))` for a natural number `n`: the least `r` with `n ≤ r * r`. -/
def ceilSqrt (n : Nat) : Nat := ceilSqrtFrom n n 0

/-- The value of `(int) ceil(sqrt(x))` for an `int` `x`: `ceilSqrt` for `x ≥ 0`, and `-2^31`
for `x < 0`, where `sqrt` yields a NaN. -/
def ceilSqrtInt (x : Int) : Int :=
  if x < 0 then -2147483648 else (ceilSqrt x.toNat : Int)

/-! ## `printPrimes` -/

/-- The loop `for (int i = 3; i < length; i += 2)` of `printPrimes`, carrying the
lines printed so far and `num_primes_found`.  `i` is odd and below the `int` `length` when 2
is added, so `i + 2` is within `int`. -/
def printPrimesLoop (numbers : List Nat) (length : Int) :
    Nat → Nat → List Nat → Nat → Except Fault (List Nat × Nat)
  | 0, _, _, _ => .error .outOfFuel
  | fuel + 1, i, printed, num_primes_found =>
    if (i : Int) < length then
      match readAt numbers i with
      | .error e => .error e
      | .ok v =>
        if v ≠ 0 then
          printPrimesLoop numbers length fuel (i + 2) (printed ++ [i]) (num_primes_found + 1)
        else
          printPrimesLoop numbers length fuel (i + 2) printed num_primes_found
    else .ok (printed, num_primes_found)

/-- The function `printPrimes(numbers, length)`: the numbers printed one per line (after
the header line) and the value printed as `Number of primes found`. -/
def printPrimes (fuel : Nat) (numbers : List Nat) (length : Int) :
    Except Fault (List Nat × Nat) :=
  printPrimesLoop numbers length fuel 3 [2] 1

/-! ## `computeMultiples` -/

/-- The loop `for (int i = base_number * base_number; i < largest_number + 1; i = i + base_number)`
of `computeMultiples`, storing `0` at each `i`.  The bound `largest_number + 1` and the step
`i + base_number` are `int` sums. -/
def computeMultiplesLoop (base_number largest_number : Nat) :
    Nat → Int → List Nat → Except Fault (List Nat)
  | 0, _, _ => .error .outOfFuel
  | fuel + 1, i, numbers =>
    if i < wrapInt ((largest_number : Int) + 1) then
      match writeAt numbers i 0 with
      | .error e => .error e
      | .ok numbers' =>
        computeMultiplesLoop base_number largest_number fuel
          (wrapInt (i + (base_number : Int))) numbers'
    else .ok numbers

/-- The worker `computeMultiples` run to completion on the array `numbers`; the loop starts
at the `int` product `base_number * base_number`. -/
def computeMultiples (fuel base_number largest_number : Nat) (numbers : List Nat) :
    Except Fault (List Nat) :=
  computeMultiplesLoop base_number largest_number fuel
    (wrapInt ((base_number : Int) * (base_number : Int))) numbers

/-- The positions written by the loop of `computeMultiples`, in the order of the writes
(the same loop, recording `i` at the store).  A store at a negative index is a store outside
every array: the fault `outOfBounds`. -/
def computeMultiplesWrites (base_number largest_number : Nat) :
    Nat → Int → Except Fault (List Nat)
  | 0, _ => .error .outOfFuel
  | fuel + 1, i =>
    if i < wrapInt ((largest_number : Int) + 1) then
      if i < 0 then .error .outOfBounds
      else
        match computeMultiplesWrites base_number largest_number fuel
            (wrapInt (i + (base_number : Int))) with
        | .error e => .error e
        | .ok rest => .ok (i.toNat :: rest)
    else .ok []

/-- The positions a worker with base `base_number` writes. -/
def workerWrites (fuel base_number largest_number : Nat) : Except Fault (List Nat) :=
  computeMultiplesWrites base_number largest_number fuel
    (wrapInt ((base_number : Int) * (base_number : Int)))

/-! ## `findPrimesParallel` -/

/-- The scan `for (; lowest_prime < (int) ceil(sqrt(largest_number + 1)); lowest_prime += 2)`
for one slot, with the `int` sum `largest_number + 1`.  Yields the claimed `base_number`
(`none` for `-1`), the cursor `lowest_prime` after the scan, and the positions read.
`lowest_prime` is below the scan bound, at most 46341, when 2 is added, so
`lowest_prime + 2` is within `int`. -/
def findNextBase (vis : Nat → Bool) (largest_number : Nat) (snapshot numbers : List Nat) :
    Nat → Nat → Except Fault (Option Nat × Nat × List Nat)
  | 0, _ => .error .outOfFuel
  | fuel + 1, lowest_prime =>
    if (lowest_prime : Int) < ceilSqrtInt (wrapInt ((largest_number : Int) + 1)) then
      match readAt (if vis lowest_prime then numbers else snapshot) lowest_prime with
      | .error e => .error e
      | .ok v =>
        if v = 1 then .ok (some lowest_prime, lowest_prime + 2, [lowest_prime])
        else
          match findNextBase vis largest_number snapshot numbers fuel (lowest_prime + 2) with
          | .error e => .error e
          | .ok (b, lp, reads) => .ok (b, lp, lowest_prime :: reads)
    else .ok (none, lowest_prime, [])

/-- What one round of `findPrimesParallel` leaves behind. -/
structure RoundResult where
  /-- The array after the join of the round. -/
  numbers : List Nat
  /-- The cursor after the round. -/
  lowest_prime : Nat
  /-- Base numbers of the workers created in the round, in slot order
  (their number is `num_threads_started`). -/
  started : List Nat
  /-- The flag `done`. -/
  done : Bool
  /-- Each evaluation of `numbers[lowest_prime] == 1` in the round: the position read and
  the number of workers in flight at that moment. -/
  reads : List (Nat × Nat)

/-- The slot loop `for (int i = 0; i < num_threads; i++)` of one round, from slot `i` on.
`snapshot` is the array at the start of the round, `numbers` the array with the writes of
the workers in `started` completed. -/
def slotLoop (vis : Nat → Bool) (fuel0 largest_number : Nat) (num_threads : Int)
    (snapshot : List Nat) : Nat → Nat → Nat → List Nat → List Nat → Except Fault RoundResult
  | 0, _, _, _, _ => .error .outOfFuel
  | fuel + 1, i, lowest_prime, numbers, started =>
    if (i : Int) < num_threads then
      match findNextBase vis largest_number snapshot numbers fuel0 lowest_prime with
      | .error e => .error e
      | .ok (none, lp, reads) =>
        .ok ⟨numbers, lp, started, true, reads.map (fun j => (j, started.length))⟩
      | .ok (some base_number, lp, reads) =>
        match computeMultiples fuel0 base_number largest_number numbers with
        | .error e => .error e
        | .ok numbers' =>
          match slotLoop vis fuel0 largest_number num_threads snapshot fuel (i + 1) lp numbers'
              (started ++ [base_number]) with
          | .error e => .error e
          | .ok r =>
            .ok ⟨r.numbers, r.lowest_prime, r.started, r.done,
              reads.map (fun j => (j, started.length)) ++ r.reads⟩
    else .ok ⟨numbers, lowest_prime, started, false, []⟩

/-- One round as recorded in the trace of a run. -/
structure RoundLog where
  /-- Base numbers of the workers dispatched in the round, in slot order. -/
  started : List Nat
  /-- The scheduler reads of the round: position and number of workers in flight. -/
  reads : List (Nat × Nat)

/-- The result of `findPrimesParallel` together with the trace of its rounds. -/
structure Run where
  /-- The array returned. -/
  numbers : List Nat
  /-- The final value of the cursor `lowest_prime`. -/
  lowest_prime : Nat
  /-- The rounds of the `while (!done)` loop, in order. -/
  rounds : List RoundLog

/-- All base numbers claimed in a run, in the order of the claims. -/
def Run.bases (run : Run) : List Nat := (run.rounds.map RoundLog.started).flatten

/-- The loop `while (!done)`: each iteration runs the slot loop and joins the workers. -/
def roundLoop (vis : Nat → Bool) (fuel0 largest_number : Nat) (num_threads : Int) :
    Nat → List Nat → Nat → Except Fault Run
  | 0, _, _ => .error .outOfFuel
  | fuel + 1, numbers, lowest_prime =>
    match slotLoop vis fuel0 largest_number num_threads numbers fuel0 0 lowest_prime numbers [] with
    | .error e => .error e
    | .ok r =>
      if r.done then .ok ⟨r.numbers, r.lowest_prime, [⟨r.started, r.reads⟩]⟩
      else
        match roundLoop vis fuel0 largest_number num_threads fuel r.numbers r.lowest_prime with
        | .error e => .error e
        | .ok run => .ok ⟨run.numbers, run.lowest_prime, ⟨r.started, r.reads⟩ :: run.rounds⟩

/-- The function `findPrimesParallel(largest_number, num_threads)` with the trace of its
rounds, for `largest_number ≥ 0` (`main` passes an `int` above 1).  The array has
`largest_number + 1` entries, an `int` sum, all set to 1 (no entry when the sum is
negative). -/
def findPrimesParallelRun (vis : Nat → Bool) (fuel largest_number : Nat) (num_threads : Int) :
    Except Fault Run :=
  roundLoop vis fuel largest_number num_threads fuel
    (List.replicate (wrapInt ((largest_number : Int) + 1)).toNat 1) 3

/-- The function `findPrimesParallel(largest_number, num_threads)`: the array it returns. -/
def findPrimesParallel (vis : Nat → Bool) (fuel largest_number : Nat) (num_threads : Int) :
    Except Fault (List Nat) :=
  match findPrimesParallelRun vis fuel largest_number num_threads with
  | .error e => .error e
  | .ok run => .ok run.numbers

/-- The workers with the bases listed, run to completion one after the other in the order of
the list. -/
def runWorkers (fuel largest_number : Nat) : List Nat → List Nat → Except Fault (List Nat)
  | [], numbers => .ok numbers
  | base_number :: rest, numbers =>
    match computeMultiples fuel base_number largest_number numbers with
    | .error e => .error e
    | .ok numbers' => runWorkers fuel largest_number rest numbers'

/-! ## `main` -/

/-- How a run of `main` ends. -/
inductive Outcome where
  /-- Wrong argument count: the usage line is printed and `main` returns 1. -/
  | usage
  /-- The process aborts at `assert(largest_number > 1)`. -/
  | assertionFailed
  /-- The computation was started and did not complete. -/
  | fault (f : Fault)
  /-- The computation ran, `printPrimes` printed `printed` and the count `count`, and
  `main` returned 0. -/
  | finished (printed : List Nat) (count : Nat)
  deriving DecidableEq

/-- The function `main`, on the argument vector `argv` (`argc` is its length).  The C library
parser `atoi` is an argument; the value it denotes is stored in an `int`.  `printPrimes`
receives the `int` sum `largest_number + 1`. -/
def main (atoi : String → Int) (vis : Nat → Bool) (fuel : Nat) (argv : List String) : Outcome :=
  if argv.length < 3 ∨ argv.length > 3 then .usage
  else
    let largest_number := wrapInt (atoi (argv.getD 1 ""))
    if ¬ (largest_number > 1) then .assertionFailed
    else
      let num_threads := wrapInt (atoi (argv.getD 2 ""))
      match findPrimesParallel vis fuel largest_number.toNat num_threads with
      | .error f => .fault f
      | .ok numbers =>
        match printPrimes fuel numbers (wrapInt (largest_number + 1)) with
        | .error f => .fault f
        | .ok (printed, count) => .finished printed count

/-- Digits loop of `atoiC`. -/
def atoiDigits : List Char → Int → Int
  | [], acc => acc
  | ch :: rest, acc =>
    if 48 ≤ ch.toNat ∧ ch.toNat ≤ 57 then atoiDigits rest (acc * 10 + ((ch.toNat : Int) - 48))
    else acc

/-- The C library function `atoi` on inputs within range: leading white space, an optional
sign, then decimal digits up to the first other character; no digits give 0. -/
def atoiC (s : String) : Int :=
  match s.toList.dropWhile (fun ch => ch.toNat = 32 ∨ (9 ≤ ch.toNat ∧ ch.toNat ≤ 13)) with
  | '-' :: rest => - atoiDigits rest 0
  | '+' :: rest => atoiDigits rest 0
  | cs => atoiDigits cs 0

/-! ## Reference loops in exact arithmetic

The loops above with every `int` sum and product taken in `Nat`, and all indices natural
numbers.  No statement of a claim is about them. -/

namespace Exact

/-- The read `numbers[i]` at a natural index. -/
def readAt (numbers : List Nat) (i : Nat) : Except Fault Nat :=
  match numbers[i]? with
  | some v => .ok v
  | none => .error .outOfBounds

/-- The write `numbers[i] = v` at a natural index: the array with position `i` replaced, or
the fault `outOfBounds` when the array has no position `i`. -/
def writeAt : List Nat → Nat → Nat → Except Fault (List Nat)
  | [], _, _ => .error .outOfBounds
  | _ :: rest, 0, v => .ok (v :: rest)
  | x :: rest, i + 1, v =>
    match writeAt rest i v with
    | .error e => .error e
    | .ok rest' => .ok (x :: rest')

/-- Reference for `printPrimesLoop`: the bound `length` is a natural number. -/
def printPrimesLoop (numbers : List Nat) (length : Nat) :
    Nat → Nat → List Nat → Nat → Except Fault (List Nat × Nat)
  | 0, _, _, _ => .error .outOfFuel
  | fuel + 1, i, printed, num_primes_found =>
    if i < length then
      match readAt numbers i with
      | .error e => .error e
      | .ok v =>
        if v ≠ 0 then
          printPrimesLoop numbers length fuel (i + 2) (printed ++ [i]) (num_primes_found + 1)
        else
          printPrimesLoop numbers length fuel (i + 2) printed num_primes_found
    else .ok (printed, num_primes_found)

/-- Reference for `printPrimes`. -/
def printPrimes (fuel : Nat) (numbers : List Nat) (length : Nat) :
    Except Fault (List Nat × Nat) :=
  printPrimesLoop numbers length fuel 3 [2] 1

/-- Reference for `computeMultiplesLoop`: the index `i`, the bound `largest_number + 1` and
the step `i + base_number` are natural numbers. -/
def computeMultiplesLoop (base_number largest_number : Nat) :
    Nat → Nat → List Nat → Except Fault (List Nat)
  | 0, _, _ => .error .outOfFuel
  | fuel + 1, i, numbers =>
    if i < largest_number + 1 then
      match writeAt numbers i 0 with
      | .error e => .error e
      | .ok numbers' => computeMultiplesLoop base_number largest_number fuel (i + base_number) numbers'
    else .ok numbers

/-- Reference for `computeMultiples`: the loop starts at the natural number
`base_number * base_number`. -/
def computeMultiples (fuel base_number largest_number : Nat) (numbers : List Nat) :
    Except Fault (List Nat) :=
  computeMultiplesLoop base_number largest_number fuel (base_number * base_number) numbers

/-- Reference for `computeMultiplesWrites`. -/
def computeMultiplesWrites (base_number largest_number : Nat) :
    Nat → Nat → Except Fault (List Nat)
  | 0, _ => .error .outOfFuel
  | fuel + 1, i =>
    if i < largest_number + 1 then
      match computeMultiplesWrites base_number largest_number fuel (i + base_number) with
      | .error e => .error e
      | .ok rest => .ok (i :: rest)
    else .ok []

/-- Reference for `workerWrites`. -/
def workerWrites (fuel base_number largest_number : Nat) : Except Fault (List Nat) :=
  computeMultiplesWrites base_number largest_number fuel (base_number * base_number)

/-- Reference for `findNextBase`: the scan bound is `ceilSqrt (largest_number + 1)` with the
sum taken in `Nat`. -/
def findNextBase (vis : Nat → Bool) (largest_number : Nat) (snapshot numbers : List Nat) :
    Nat → Nat → Except Fault (Option Nat × Nat × List Nat)
  | 0, _ => .error .outOfFuel
  | fuel + 1, lowest_prime =>
    if lowest_prime < ceilSqrt (largest_number + 1) then
      match readAt (if vis lowest_prime then numbers else snapshot) lowest_prime with
      | .error e => .error e
      | .ok v =>
        if v = 1 then .ok (some lowest_prime, lowest_prime + 2, [lowest_prime])
        else
          match findNextBase vis largest_number snapshot numbers fuel (lowest_prime + 2) with
          | .error e => .error e
          | .ok (b, lp, reads) => .ok (b, lp, lowest_prime :: reads)
    else .ok (none, lowest_prime, [])

/-- Reference for `slotLoop`, over the reference scan and worker. -/
def slotLoop (vis : Nat → Bool) (fuel0 largest_number : Nat) (num_threads : Int)
    (snapshot : List Nat) : Nat → Nat → Nat → List Nat → List Nat → Except Fault RoundResult
  | 0, _, _, _, _ => .error .outOfFuel
  | fuel + 1, i, lowest_prime, numbers, started =>
    if (i : Int) < num_threads then
      match findNextBase vis largest_number snapshot numbers fuel0 lowest_prime with
      | .error e => .error e
      | .ok (none, lp, reads) =>
        .ok ⟨numbers, lp, started, true, reads.map (fun j => (j, started.length))⟩
      | .ok (some base_number, lp, reads) =>
        match computeMultiples fuel0 base_number largest_number numbers with
        | .error e => .error e
        | .ok numbers' =>
          match slotLoop vis fuel0 largest_number num_threads snapshot fuel (i + 1) lp numbers'
              (started ++ [base_number]) with
          | .error e => .error e
          | .ok r =>
            .ok ⟨r.numbers, r.lowest_prime, r.started, r.done,
              reads.map (fun j => (j, started.length)) ++ r.reads⟩
    else .ok ⟨numbers, lowest_prime, started, false, []⟩

/-- Reference for `roundLoop`. -/
def roundLoop (vis : Nat → Bool) (fuel0 largest_number : Nat) (num_threads : Int) :
    Nat → List Nat → Nat → Except Fault Run
  | 0, _, _ => .error .outOfFuel
  | fuel + 1, numbers, lowest_prime =>
    match slotLoop vis fuel0 largest_number num_threads numbers fuel0 0 lowest_prime numbers [] with
    | .error e => .error e
    | .ok r =>
      if r.done then .ok ⟨r.numbers, r.lowest_prime, [⟨r.started, r.reads⟩]⟩
      else
        match roundLoop vis fuel0 largest_number num_threads fuel r.numbers r.lowest_prime with
        | .error e => .error e
        | .ok run => .ok ⟨run.numbers, run.lowest_prime, ⟨r.started, r.reads⟩ :: run.rounds⟩

/-- Reference for `findPrimesParallelRun`: the array has `largest_number + 1` entries with the
sum taken in `Nat`. -/
def findPrimesParallelRun (vis : Nat → Bool) (fuel largest_number : Nat) (num_threads : Int) :
    Except Fault Run :=
  roundLoop vis fuel largest_number num_threads fuel (List.replicate (largest_number + 1) 1) 3

/-- Reference for `findPrimesParallel`. -/
def findPrimesParallel (vis : Nat → Bool) (fuel largest_number : Nat) (num_threads : Int) :
    Except Fault (List Nat) :=
  match findPrimesParallelRun vis fuel largest_number num_threads with
  | .error e => .error e
  | .ok run => .ok run.numbers

/-- Reference for `runWorkers`. -/
def runWorkers (fuel largest_number : Nat) : List Nat → List Nat → Except Fault (List Nat)
  | [], numbers => .ok numbers
  | base_number :: rest, numbers =>
    match computeMultiples fuel base_number largest_number numbers with
    | .error e => .error e
    | .ok numbers' => runWorkers fuel largest_number rest numbers'

end Exact

/-! ## Quantities the statements refer to -/

/-- The primes up to `N`, in increasing order. -/
def primesUpTo (N : Nat) : List Nat :=
  (List.range (N + 1)).filter (fun n => decide (Nat.Prime n))

/-- The number of primes `p` with `p ≤ sqrt N`, that is `p * p ≤ N`. -/
def basePrimeCount (N : Nat) : Nat :=
  ((List.range (N + 1)).filter (fun p => decide (p * p ≤ N ∧ Nat.Prime p))).length

/-- The number of odd `b ≥ 3` with `b * b ≤ N`. -/
def oddBaseCount (N : Nat) : Nat :=
  ((List.range (N + 1)).filter (fun b => decide (3 ≤ b ∧ b % 2 = 1 ∧ b * b ≤ N))).length

/-- The quotient `a / w` rounded up. -/
def ceilDiv (a w : Nat) : Nat := (a + w - 1) / w

/-- The number of rounds of a run in which at least one worker is dispatched. -/
def dispatchRounds (run : Run) : Nat :=
  (run.rounds.filter (fun rd => decide (rd.started ≠ []))).length

/-- The positions read by the scheduler in a run, in the order of the reads. -/
def Run.readPositions (run : Run) : List Nat :=
  ((run.rounds.map RoundLog.reads).flatten).map Prod.fst

/-- The odd numbers from 3 below the scan bound `ceil(sqrt(N + 1))`, in increasing order. -/
def scanPositions (N : Nat) : List Nat :=
  (List.range (ceilSqrt (N + 1))).filter (fun j => decide (3 ≤ j ∧ j % 2 = 1))

/-- The schedule in which every worker has finished before the scheduler reads again: each
worker's crossing-out is applied as soon as the worker is created. -/
def eager : Nat → Bool := fun _ => true

/-- The schedule in which no write of a worker is seen by the scheduler before the join: the
crossing-out of a round takes effect at the end of the round. -/
def deferred : Nat → Bool := fun _ => false

/-! ## Invariants of the flag array -/

/-- The array has `N + 1` entries, each 0 or 1, and a position holding 0 has an odd
divisor `b ≥ 3` whose square does not exceed it. -/
def Sound (N : Nat) (A : List Nat) : Prop :=
  A.length = N + 1 ∧ (∀ (m v : Nat), A[m]? = some v → v = 0 ∨ v = 1) ∧
    ∀ m : Nat, A[m]? = some 0 → ∃ b, 3 ≤ b ∧ b % 2 = 1 ∧ b * b ≤ m ∧ b ∣ m

/-- Every odd prime below the cursor `c` has been crossed out from its square on. -/
def Complete (N c : Nat) (A : List Nat) : Prop :=
  ∀ p, Nat.Prime p → p % 2 = 1 → p < c → ∀ m, m ≤ N → p * p ≤ m → p ∣ m → A[m]? = some 0

/-- Positions holding 0 in `A` hold 0 in `B`. -/
def ZerosKept (A B : List Nat) : Prop :=
  ∀ m : Nat, A[m]? = some 0 → B[m]? = some 0

theorem ZerosKept.refl (A : List Nat) : ZerosKept A A := fun _ h => h

theorem ZerosKept.trans {A B C : List Nat} (h1 : ZerosKept A B) (h2 : ZerosKept B C) :
    ZerosKept A C := fun m h => h2 m (h1 m h)

theorem Complete.mono {N c : Nat} {A B : List Nat} (h : Complete N c A) (hk : ZerosKept A B) :
    Complete N c B := fun p hp ho hc m hm hsq hd => hk m (h p hp ho hc m hm hsq hd)

theorem Sound.not_prime_of_zero {N : Nat} {A : List Nat} (h : Sound N A) {m : Nat}
    (hm : A[m]? = some 0) : ¬ Nat.Prime m := by
  intro hp
  obtain ⟨b, hb3, _, hsq, hd⟩ := h.2.2 m hm
  rcases (Nat.dvd_prime hp).mp hd with h1 | h1
  · omega
  · subst h1
    have : b * 3 ≤ b * b := Nat.mul_le_mul_left b hb3
    omega

/-! ## Reference loops: invariants -/

namespace Exact

/-! ## Square-root bound -/

theorem ceilSqrtFrom_spec (n : Nat) : ∀ fuel r, n ≤ fuel + r → (∀ k, k < r → k * k < n) →
    n ≤ ceilSqrtFrom n fuel r * ceilSqrtFrom n fuel r ∧
      ∀ k, k < ceilSqrtFrom n fuel r → k * k < n := by
  intro fuel
  induction fuel with
  | zero =>
    intro r hr hlow
    simp only [ceilSqrtFrom]
    refine ⟨?_, hlow⟩
    have : n ≤ r := by omega
    rcases Nat.eq_zero_or_pos r with h0 | hpos
    · subst h0; omega
    · calc n ≤ r := this
        _ = r * 1 := (Nat.mul_one r).symm
        _ ≤ r * r := Nat.mul_le_mul_left r hpos
  | succ fuel ih =>
    intro r hr hlow
    simp only [ceilSqrtFrom]
    split
    · exact ⟨by assumption, hlow⟩
    · rename_i hlt
      apply ih (r + 1) (by omega)
      intro k hk
      rcases Nat.lt_succ_iff_lt_or_eq.mp hk with h | h
      · exact hlow k h
      · subst h; omega

theorem le_ceilSqrt_sq (n : Nat) : n ≤ ceilSqrt n * ceilSqrt n :=
  (ceilSqrtFrom_spec n n 0 (by omega) (by intro k hk; omega)).1

theorem sq_lt_of_lt_ceilSqrt {n k : Nat} (h : k < ceilSqrt n) : k * k < n :=
  (ceilSqrtFrom_spec n n 0 (by omega) (by intro k hk; omega)).2 k h

/-- A number lies below the scan bound exactly when its square is at most the bound. -/
theorem lt_ceilSqrt_iff (N b : Nat) : b < ceilSqrt (N + 1) ↔ b * b ≤ N := by
  constructor
  · intro h
    have := sq_lt_of_lt_ceilSqrt h
    omega
  · intro h
    by_contra hge
    have hge : ceilSqrt (N + 1) ≤ b := by omega
    have h1 := le_ceilSqrt_sq (N + 1)
    have h2 : ceilSqrt (N + 1) * ceilSqrt (N + 1) ≤ b * b := Nat.mul_le_mul hge hge
    omega

/-! ## The crossing-out loop -/

/-- A write inside the array succeeds and replaces the one position. -/
theorem writeAt_of_lt : ∀ (numbers : List Nat) (i v : Nat), i < numbers.length →
    writeAt numbers i v = .ok (numbers.set i v) := by
  intro numbers
  induction numbers with
  | nil => intro i v h; simp at h
  | cons x rest ih =>
    intro i v h
    cases i with
    | zero => rfl
    | succ i =>
      simp only [List.length_cons, Nat.add_lt_add_iff_right] at h
      simp only [writeAt, ih i v h, List.set_cons_succ]

/-- A write outside the array is the fault `outOfBounds`. -/
theorem writeAt_of_ge : ∀ (numbers : List Nat) (i v : Nat), numbers.length ≤ i →
    writeAt numbers i v = .error .outOfBounds := by
  intro numbers
  induction numbers with
  | nil => intro i v _; rfl
  | cons x rest ih =>
    intro i v h
    cases i with
    | zero => simp at h
    | succ i =>
      simp only [List.length_cons, Nat.add_le_add_iff_right] at h
      simp only [writeAt, ih i v h]

theorem computeMultiplesLoop_spec (b N : Nat) (hb : 0 < b) :
    ∀ fuel i (numbers : List Nat), numbers.length = N + 1 → N + 1 - i < fuel →
      ∃ r, computeMultiplesLoop b N fuel i numbers = .ok r ∧ r.length = N + 1 ∧
        ∀ j, r[j]? = if i ≤ j ∧ j ≤ N ∧ b ∣ j - i then some 0 else numbers[j]? := by
  intro fuel
  induction fuel with
  | zero => intro i numbers _ h; omega
  | succ fuel ih =>
    intro i numbers hlen hfuel
    simp only [computeMultiplesLoop]
    by_cases hi : i < N + 1
    · have hw : writeAt numbers i 0 = .ok (numbers.set i 0) := by
        exact writeAt_of_lt numbers i 0 (by omega)
      simp only [hi, if_true, hw]
      obtain ⟨r, hr, hrl, hrj⟩ := ih (i + b) (numbers.set i 0) (by simp [hlen]) (by omega)
      refine ⟨r, hr, hrl, ?_⟩
      intro j
      rw [hrj j]
      by_cases hji : j = i
      · subst hji
        have h1 : ¬ (j + b ≤ j ∧ j ≤ N ∧ b ∣ j - (j + b)) := by omega
        have h2 : j ≤ j ∧ j ≤ N ∧ b ∣ j - j := ⟨le_refl _, by omega, by simp⟩
        simp [h1, h2, hlen, hi]
      · have hset : (numbers.set i 0)[j]? = numbers[j]? := by
          rw [List.getElem?_set_ne (fun h => hji h.symm)]
        have hiff : (i + b ≤ j ∧ j ≤ N ∧ b ∣ j - (i + b)) ↔ (i ≤ j ∧ j ≤ N ∧ b ∣ j - i) := by
          constructor
          · rintro ⟨h1, h2, h3⟩
            refine ⟨by omega, h2, ?_⟩
            have : j - i = (j - (i + b)) + b := by omega
            rw [this]
            exact Nat.dvd_add h3 (dvd_refl b)
          · rintro ⟨h1, h2, h3⟩
            have hpos : 0 < j - i := by omega
            have hle : b ≤ j - i := Nat.le_of_dvd hpos h3
            refine ⟨by omega, h2, ?_⟩
            have : j - (i + b) = (j - i) - b := by omega
            rw [this]
            exact Nat.dvd_sub' h3 (dvd_refl b)
        rw [hset]
        by_cases hc : i ≤ j ∧ j ≤ N ∧ b ∣ j - i
        · rw [if_pos hc, if_pos (hiff.mpr hc)]
        · rw [if_neg hc, if_neg (fun h => hc (hiff.mp h))]
    · refine ⟨numbers, by simp [hi], hlen, ?_⟩
      intro j
      have : ¬ (i ≤ j ∧ j ≤ N ∧ b ∣ j - i) := by omega
      rw [if_neg this]

theorem dvd_sub_sq_iff {b j : Nat} (h : b * b ≤ j) : b ∣ j - b * b ↔ b ∣ j := by
  constructor
  · intro hd
    have : j = (j - b * b) + b * b := by omega
    rw [this]
    exact Nat.dvd_add hd (Dvd.intro b rfl)
  · intro hd
    exact Nat.dvd_sub' hd (Dvd.intro b rfl)

/-- A worker returns for every base at least 1 and stores 0 at the multiples of its base
from the square of the base on. -/
theorem computeMultiples_spec (fuel b N : Nat) (numbers : List Nat) (hb : 0 < b)
    (hlen : numbers.length = N + 1) (hfuel : N + 1 ≤ fuel) :
    ∃ r, computeMultiples fuel b N numbers = .ok r ∧ r.length = N + 1 ∧
      ∀ j, r[j]? = if b * b ≤ j ∧ j ≤ N ∧ b ∣ j then some 0 else numbers[j]? := by
  have hbb : 0 < b * b := Nat.mul_pos hb hb
  obtain ⟨r, hr, hrl, hrj⟩ := computeMultiplesLoop_spec b N hb fuel (b * b) numbers hlen (by omega)
  refine ⟨r, hr, hrl, ?_⟩
  intro j
  rw [hrj j]
  by_cases hc : b * b ≤ j
  · simp only [hc, true_and, dvd_sub_sq_iff hc]
  · simp [hc]

/-! ## Invariants of the flag array -/

theorem sound_replicate (N : Nat) : Sound N (List.replicate (N + 1) 1) := by
  refine ⟨by simp, ?_, ?_⟩
  · intro m v h
    rw [List.getElem?_replicate] at h
    split at h
    · simp at h; omega
    · simp at h
  · intro m h
    rw [List.getElem?_replicate] at h
    split at h <;> simp at h

/-- An odd number from 3 on that is not prime has an odd prime factor whose square does
not exceed it. -/
theorem exists_odd_prime_factor {m : Nat} (h3 : 3 ≤ m) (hodd : m % 2 = 1)
    (hnp : ¬ Nat.Prime m) : ∃ p, Nat.Prime p ∧ p % 2 = 1 ∧ p * p ≤ m ∧ p ∣ m := by
  have hp : Nat.Prime (Nat.minFac m) := Nat.minFac_prime (by omega)
  have hd : Nat.minFac m ∣ m := Nat.minFac_dvd m
  have hsq : Nat.minFac m ^ 2 ≤ m := Nat.minFac_sq_le_self (by omega) hnp
  refine ⟨Nat.minFac m, hp, ?_, by rwa [sq] at hsq, hd⟩
  rcases Nat.Prime.eq_two_or_odd hp with h2 | h2
  · rw [h2] at hd
    omega
  · exact h2

/-- What a worker with an odd base from 3 on does to a sound array. -/
theorem computeMultiples_sound (fuel b N : Nat) (numbers : List Nat) (hb : 3 ≤ b)
    (hodd : b % 2 = 1) (hs : Sound N numbers) (hfuel : N + 1 ≤ fuel) :
    ∃ r, computeMultiples fuel b N numbers = .ok r ∧ Sound N r ∧ ZerosKept numbers r ∧
      ∀ m, m ≤ N → b * b ≤ m → b ∣ m → r[m]? = some 0 := by
  obtain ⟨r, hr, hrl, hrj⟩ := computeMultiples_spec fuel b N numbers (by omega) hs.1 hfuel
  refine ⟨r, hr, ⟨hrl, ?_, ?_⟩, ?_, ?_⟩
  · intro m v hv
    rw [hrj m] at hv
    split at hv
    · left; simpa using hv.symm
    · exact hs.2.1 m v hv
  · intro m hv
    rw [hrj m] at hv
    split at hv
    · rename_i hc
      exact ⟨b, hb, hodd, hc.1, hc.2.2⟩
    · exact hs.2.2 m hv
  · intro m hv
    rw [hrj m]
    split
    · rfl
    · exact hv
  · intro m hm hsq hd
    rw [hrj m, if_pos ⟨hsq, hm, hd⟩]

/-- Shape of the array once every odd prime below the scan bound has been crossed out. -/
theorem final_shape {N c : Nat} {A : List Nat} (hs : Sound N A) (hc : Complete N c A)
    (hR : ceilSqrt (N + 1) ≤ c) (m : Nat) (hm : m ≤ N) :
    ((∃ p, Nat.Prime p ∧ p % 2 = 1 ∧ p * p ≤ m ∧ p ∣ m) → A[m]? = some 0) ∧
      ((¬ ∃ p, Nat.Prime p ∧ p % 2 = 1 ∧ p * p ≤ m ∧ p ∣ m) → A[m]? = some 1) := by
  have hlt : m < A.length := by rw [hs.1]; omega
  constructor
  · rintro ⟨p, hp, ho, hsq, hd⟩
    have hpR : p < ceilSqrt (N + 1) := (lt_ceilSqrt_iff N p).mpr (by omega)
    exact hc p hp ho (by omega) m hm hsq hd
  · intro hex
    have hget : A[m]? = some A[m] := List.getElem?_eq_getElem hlt
    rcases hs.2.1 m _ hget with h0 | h1
    · exfalso
      rw [h0] at hget
      obtain ⟨b, hb3, hbo, hsq, hd⟩ := hs.2.2 m hget
      have hp : Nat.Prime (Nat.minFac b) := Nat.minFac_prime (by omega)
      have hdb : Nat.minFac b ∣ b := Nat.minFac_dvd b
      have hle : Nat.minFac b ≤ b := Nat.minFac_le (by omega)
      apply hex
      refine ⟨Nat.minFac b, hp, ?_, ?_, dvd_trans hdb hd⟩
      · rcases Nat.Prime.eq_two_or_odd hp with h2 | h2
        · rw [h2] at hdb; omega
        · exact h2
      · calc Nat.minFac b * Nat.minFac b ≤ b * b := Nat.mul_le_mul hle hle
          _ ≤ m := hsq
    · rw [hget, h1]

/-- On odd positions from 3 on the final flag is 1 exactly at the primes. -/
theorem odd_prime_iff_no_factor {m : Nat} (h3 : 3 ≤ m) (hodd : m % 2 = 1) :
    (¬ ∃ p, Nat.Prime p ∧ p % 2 = 1 ∧ p * p ≤ m ∧ p ∣ m) ↔ Nat.Prime m := by
  constructor
  · intro h
    by_contra hnp
    exact h (exists_odd_prime_factor h3 hodd hnp)
  · rintro hp ⟨p, hpp, _, hsq, hd⟩
    rcases (Nat.dvd_prime hp).mp hd with h1 | h1
    · exact Nat.Prime.one_lt hpp |>.ne' h1
    · subst h1
      have : p * 3 ≤ p * p := Nat.mul_le_mul_left p h3
      omega

/-! ## The scan for the next base -/

theorem readAt_of_lt {A : List Nat} {N i : Nat} (hlen : A.length = N + 1) (hi : i ≤ N) :
    ∃ v, readAt A i = .ok v ∧ A[i]? = some v := by
  have hlt : i < A.length := by omega
  refine ⟨A[i], ?_, List.getElem?_eq_getElem hlt⟩
  simp [readAt, List.getElem?_eq_getElem hlt]

theorem le_of_lt_ceilSqrt {N c : Nat} (h : c < ceilSqrt (N + 1)) : c ≤ N := by
  have h1 := (lt_ceilSqrt_iff N c).mp h
  rcases Nat.eq_zero_or_pos c with h0 | hpos
  · omega
  · calc c = c * 1 := (Nat.mul_one c).symm
      _ ≤ c * c := Nat.mul_le_mul_left c hpos
      _ ≤ N := h1

/-- The scan returns; it claims the first position from the cursor on that it sees flagged,
or runs to the bound when it sees none. -/
theorem findNextBase_spec (vis : Nat → Bool) (N : Nat) (snapshot numbers : List Nat)
    (hS : Sound N snapshot) (hA : Sound N numbers) (hk : ZerosKept snapshot numbers) :
    ∀ fuel c, 3 ≤ c → c % 2 = 1 → Complete N c numbers → ceilSqrt (N + 1) - c < fuel →
      ∃ b lp reads, findNextBase vis N snapshot numbers fuel c = .ok (b, lp, reads) ∧
        lp % 2 = 1 ∧ c ≤ lp ∧
        (∀ x, b = some x → c ≤ x ∧ x < ceilSqrt (N + 1) ∧ x % 2 = 1 ∧ lp = x + 2 ∧
          Complete N x numbers ∧ snapshot[x]? = some 1 ∧
          (vis x = true → numbers[x]? = some 1)) ∧
        (b = none → ceilSqrt (N + 1) ≤ lp ∧ Complete N lp numbers ∧
          ∀ j, c ≤ j → j < ceilSqrt (N + 1) → j % 2 = 1 → numbers[j]? = some 0) := by
  intro fuel
  induction fuel with
  | zero => intro c _ _ _ h; omega
  | succ fuel ih =>
    intro c h3 hodd hC hfuel
    simp only [findNextBase]
    by_cases hc : c < ceilSqrt (N + 1)
    · simp only [hc, if_true]
      have hcN : c ≤ N := le_of_lt_ceilSqrt hc
      have hlenV : (if vis c = true then numbers else snapshot).length = N + 1 := by
        split
        · exact hA.1
        · exact hS.1
      obtain ⟨v, hread, hget⟩ := readAt_of_lt hlenV hcN
      rw [hread]
      by_cases hv : v = 1
      · subst hv
        refine ⟨some c, c + 2, [c], by simp, by omega, by omega, ?_, by simp⟩
        intro x hx
        have hx : c = x := by simpa using hx
        subst hx
        refine ⟨le_refl _, hc, hodd, rfl, hC, ?_, ?_⟩
        · by_cases hvis : vis c = true
          · simp only [hvis, if_true] at hget
            have hlt : c < snapshot.length := by rw [hS.1]; omega
            have hg : snapshot[c]? = some snapshot[c] := List.getElem?_eq_getElem hlt
            rcases hS.2.1 c _ hg with h0 | h1
            · rw [h0] at hg
              have := hk c hg
              rw [hget] at this
              simp at this
            · rw [hg, h1]
          · simpa [hvis] using hget
        · intro hvis
          simpa [hvis] using hget
      · have hzero : numbers[c]? = some 0 := by
          by_cases hvis : vis c = true
          · simp only [hvis, if_true] at hget
            rcases hA.2.1 c v hget with h0 | h1
            · rw [h0] at hget; exact hget
            · exact absurd h1 hv
          · simp only [hvis] at hget
            rcases hS.2.1 c v (by simpa using hget) with h0 | h1
            · rw [h0] at hget; exact hk c (by simpa using hget)
            · exact absurd h1 hv
        have hnp : ¬ Nat.Prime c := hA.not_prime_of_zero hzero
        have hC2 : Complete N (c + 2) numbers := by
          intro p hp hpo hpc m hm hsq hd
          by_cases hlt : p < c
          · exact hC p hp hpo hlt m hm hsq hd
          · have : p = c := by omega
            subst this
            exact absurd hp hnp
        obtain ⟨b, lp, reads, hrun, hlpo, hle, hsome, hnone⟩ :=
          ih (c + 2) (by omega) (by omega) hC2 (by omega)
        refine ⟨b, lp, c :: reads, by simp [hv, hrun], hlpo, by omega, ?_, ?_⟩
        · intro x hx
          obtain ⟨h1, h2, h3, h4, h5, h6⟩ := hsome x hx
          exact ⟨by omega, h2, h3, h4, h5, h6⟩
        · intro hb
          obtain ⟨h1, h2, h3⟩ := hnone hb
          refine ⟨h1, h2, ?_⟩
          intro j hj1 hj2 hj3
          by_cases hjc : j = c
          · subst hjc; exact hzero
          · exact h3 j (by omega) hj2 hj3
    · refine ⟨none, c, [], by simp [hc], hodd, le_refl _, by simp, ?_⟩
      intro _
      refine ⟨by omega, hC, ?_⟩
      intro j hj1 hj2 _
      omega

/-! ## One round -/

theorem ceilSqrt_le (N : Nat) : ceilSqrt (N + 1) ≤ N + 1 := by
  by_contra h
  have h1 : N + 1 < ceilSqrt (N + 1) := by omega
  have h2 := sq_lt_of_lt_ceilSqrt h1
  have h3 : (N + 1) * 1 ≤ (N + 1) * (N + 1) := Nat.mul_le_mul_left _ (by omega)
  omega

/-- A position that holds 1 while every smaller odd prime has been crossed out is prime. -/
theorem prime_of_flagged {N x : Nat} {A : List Nat} (h3 : 3 ≤ x) (hodd : x % 2 = 1)
    (hx : x ≤ N) (hC : Complete N x A) (h1 : A[x]? = some 1) : Nat.Prime x := by
  by_contra hnp
  obtain ⟨p, hp, hpo, hsq, hd⟩ := exists_odd_prime_factor h3 hodd hnp
  have hpx : p < x := by
    have h2 : 2 ≤ p := Nat.Prime.two_le hp
    have : p * 2 ≤ p * p := Nat.mul_le_mul_left p h2
    omega
  have := hC p hp hpo hpx x hx hsq hd
  rw [h1] at this
  simp at this

/-- The slot loop returns and keeps the invariants of the array and of the cursor; the
bases it claims are listed in `r.started` after those already there. -/
theorem slotLoop_spec (vis : Nat → Bool) (fuel0 N : Nat) (W : Int) (snapshot : List Nat)
    (hS : Sound N snapshot) (hf0 : N + 1 ≤ fuel0) :
    ∀ fuel i c (numbers started : List Nat), 3 ≤ c → c % 2 = 1 → Sound N numbers →
      ZerosKept snapshot numbers → Complete N c numbers → ceilSqrt (N + 1) - c < fuel →
      ∃ r, slotLoop vis fuel0 N W snapshot fuel i c numbers started = .ok r ∧
        Sound N r.numbers ∧ ZerosKept numbers r.numbers ∧
        Complete N r.lowest_prime r.numbers ∧ r.lowest_prime % 2 = 1 ∧ c ≤ r.lowest_prime ∧
        (r.done = true → ceilSqrt (N + 1) ≤ r.lowest_prime) ∧
        ∃ new, r.started = started ++ new ∧
          (r.done = true → (i : Int) + new.length < W) ∧
          (r.done = false → W ≤ (i : Int) + new.length) ∧
          (new = [] ∨ (i : Int) + new.length ≤ W) ∧
          (r.done = false → new = [] → r.lowest_prime = c) ∧
          (r.done = false → new ≠ [] → ∃ x, x ∈ new ∧ r.lowest_prime = x + 2) ∧
          List.Pairwise (fun a b => a < b) new ∧
          (∀ x, x ∈ new → c ≤ x ∧ x + 2 ≤ r.lowest_prime ∧ x < ceilSqrt (N + 1) ∧
            x % 2 = 1 ∧ snapshot[x]? = some 1 ∧ (vis x = true → Nat.Prime x)) ∧
          (r.done = true → ∀ j, j % 2 = 1 → c ≤ j → j < ceilSqrt (N + 1) →
            (∀ x, x ∈ new → x < j) → r.numbers[j]? = some 0) := by
  intro fuel
  induction fuel with
  | zero => intro i c _ _ _ _ _ _ _ h; omega
  | succ fuel ih =>
    intro i c numbers started h3 hodd hA hk hC hfuel
    simp only [slotLoop]
    by_cases hi : (i : Int) < W
    · simp only [hi, if_true]
      have hR := ceilSqrt_le N
      obtain ⟨b, lp, reads, hrun, hlpo, hle, hsome, hnone⟩ :=
        findNextBase_spec vis N snapshot numbers hS hA hk fuel0 c h3 hodd hC (by omega)
      rw [hrun]
      cases b with
      | none =>
        obtain ⟨h1, h2, h4⟩ := hnone rfl
        refine ⟨_, rfl, ?_⟩
        dsimp only
        refine ⟨hA, ZerosKept.refl _, h2, hlpo, hle, fun _ => h1, [], by simp, ?_, ?_,
          Or.inl rfl, ?_, ?_, List.Pairwise.nil, ?_, ?_⟩
        · intro _; simpa using hi
        · intro h; simp at h
        · intro h; simp at h
        · intro h; simp at h
        · intro x hx; simp at hx
        · intro _ j hj1 hj2 hj3 _
          exact h4 j hj2 hj3 hj1
      | some x =>
        obtain ⟨hx1, hx2, hx3, hx4, hx5, hx6, hx7⟩ := hsome x rfl
        have hxN : x ≤ N := le_of_lt_ceilSqrt hx2
        obtain ⟨numbers', hcm, hA', hk', hcross⟩ :=
          computeMultiples_sound fuel0 x N numbers (by omega) hx3 hA hf0
        have hC' : Complete N lp numbers' := by
          intro p hp hpo hpc m hm hsq hd
          by_cases hlt : p < x
          · exact hk' m (hx5 p hp hpo hlt m hm hsq hd)
          · have : p = x := by omega
            subst this
            exact hcross m hm hsq hd
        obtain ⟨r, hr, hrA, hrk, hrC, hro, hrle, hrdone, new, hnew, hn1, hn2, hn3, hn4, hn4b,
            hn5, hn6, hn7⟩ :=
          ih (i + 1) lp numbers' (started ++ [x]) (by omega) hlpo hA' (hk.trans hk') hC'
            (by omega)
        simp only [hcm, hr]
        refine ⟨_, rfl, ?_⟩
        dsimp only
        refine ⟨hrA, hk'.trans hrk, hrC, hro, by omega, hrdone, x :: new, ?_, ?_, ?_,
          ?_, ?_, ?_, ?_, ?_, ?_⟩
        · simp [hnew]
        · intro hd
          have := hn1 hd
          simp only [List.length_cons]
          push_cast at this ⊢
          omega
        · intro hd
          have := hn2 hd
          simp only [List.length_cons]
          push_cast at this ⊢
          omega
        · right
          simp only [List.length_cons]
          rcases hn3 with h | h
          · subst h
            simp only [List.length_nil]
            push_cast
            omega
          · push_cast at h ⊢
            omega
        · intro _ h; simp at h
        · intro hd _
          by_cases hne : new = []
          · exact ⟨x, List.mem_cons_self _ _, by rw [hn4 hd hne, hx4]⟩
          · obtain ⟨y, hy, hy2⟩ := hn4b hd hne
            exact ⟨y, List.mem_cons_of_mem _ hy, hy2⟩
        · rw [List.pairwise_cons]
          refine ⟨?_, hn5⟩
          intro y hy
          have := (hn6 y hy).1
          omega
        · intro y hy
          rcases List.mem_cons.mp hy with h | h
          · subst h
            refine ⟨hx1, by omega, hx2, hx3, hx6, ?_⟩
            intro hv
            exact prime_of_flagged (by omega) hx3 hxN hx5 (hx7 hv)
          · obtain ⟨q1, q2, q3, q4, q5, q6⟩ := hn6 y h
            exact ⟨by omega, q2, q3, q4, q5, q6⟩
        · intro hd j hj1 hj2 hj3 hj4
          have hxj : x < j := hj4 x (List.mem_cons_self _ _)
          exact hn7 hd j hj1 (by omega) hj3 (fun y hy => hj4 y (List.mem_cons_of_mem _ hy))
    · simp only [hi, if_false]
      refine ⟨_, rfl, ?_⟩
      dsimp only
      refine ⟨hA, ZerosKept.refl _, hC, hodd, le_refl _, ?_, [], by simp, ?_,
        ?_, Or.inl rfl, ?_, ?_, List.Pairwise.nil, ?_, ?_⟩
      · intro h; simp at h
      · intro h; simp at h
      · intro _; simpa using hi
      · intro _ _; rfl
      · intro _ h; exact absurd rfl h
      · intro x hx; simp at hx
      · intro h; simp at h

/-! ## The round loop -/

/-- With a worker budget of at least 1 the round loop returns.  Every round before the last
fills all its slots, the last one does not, and at the end the cursor has reached the scan
bound with every odd prime below it crossed out. -/
theorem roundLoop_spec (vis : Nat → Bool) (fuel0 N : Nat) (W : Int) (hW : 1 ≤ W)
    (hf0 : N + 1 ≤ fuel0) :
    ∀ fuel c (numbers : List Nat), 3 ≤ c → c % 2 = 1 → Sound N numbers →
      Complete N c numbers → ceilSqrt (N + 1) - c < fuel →
      ∃ run, roundLoop vis fuel0 N W fuel numbers c = .ok run ∧
        Sound N run.numbers ∧ Complete N run.lowest_prime run.numbers ∧
        ceilSqrt (N + 1) ≤ run.lowest_prime ∧ run.lowest_prime % 2 = 1 ∧
        c ≤ run.lowest_prime ∧
        (∃ init last, run.rounds = init ++ [last] ∧
          (∀ rd, rd ∈ init → (rd.started.length : Int) = W) ∧
          (last.started.length : Int) < W) ∧
        List.Pairwise (fun a b => a < b) run.bases ∧
        (∀ x, x ∈ run.bases → c ≤ x ∧ x < ceilSqrt (N + 1) ∧ x % 2 = 1 ∧
          (vis x = true → Nat.Prime x)) ∧
        (∀ j, j % 2 = 1 → c ≤ j → j < ceilSqrt (N + 1) →
          (∀ x, x ∈ run.bases → x < j) → run.numbers[j]? = some 0) := by
  intro fuel
  induction fuel with
  | zero => intro c _ _ _ _ _ h; omega
  | succ fuel ih =>
    intro c numbers h3 hodd hA hC hfuel
    have hR := ceilSqrt_le N
    obtain ⟨r, hr, hrA, hrk, hrC, hro, hrle, hrdone, new, hnew, hn1, hn2, hn3, hn4, hn4b,
        hn5, hn6, hn7⟩ :=
      slotLoop_spec vis fuel0 N W numbers hA hf0 fuel0 0 c numbers [] h3 hodd hA
        (ZerosKept.refl _) hC (by omega)
    simp only [List.nil_append] at hnew
    simp only [roundLoop, hr]
    by_cases hd : r.done = true
    · simp only [hd, if_true]
      refine ⟨_, rfl, ?_⟩
      dsimp only [Run.bases]
      simp only [List.map_cons, List.map_nil, List.flatten_cons, List.flatten_nil,
        List.append_nil, hnew]
      refine ⟨hrA, hrC, hrdone hd, hro, hrle, ⟨[], _, rfl, by simp, ?_⟩, hn5, ?_, ?_⟩
      · have := hn1 hd
        simpa [hnew] using this
      · intro x hx
        obtain ⟨q1, q2, q3, q4, q5, q6⟩ := hn6 x hx
        exact ⟨q1, q3, q4, q6⟩
      · intro j hj1 hj2 hj3 hj4
        exact hn7 hd j hj1 hj2 hj3 hj4
    · have hd : r.done = false := by simpa using hd
      have hlenW : (new.length : Int) = W := by
        have h1 := hn2 hd
        rcases hn3 with h | h
        · subst h; simp at h1; omega
        · push_cast at h1 h; omega
      have hne : new ≠ [] := by
        intro h; subst h; simp at hlenW; omega
      obtain ⟨xl, hxl, hxl2⟩ := hn4b hd hne
      obtain ⟨ql1, ql2, ql3, ql4, ql5, ql6⟩ := hn6 xl hxl
      obtain ⟨run, hrun, hsA, hsC, hsR, hso, hsle, ⟨init, last, hrounds, hinit, hlast⟩, hpw,
          hbases, hrest⟩ :=
        ih r.lowest_prime r.numbers (by omega) hro hrA hrC (by omega)
      simp only [hd, hrun]
      refine ⟨_, rfl, ?_⟩
      have hb : (Run.mk run.numbers run.lowest_prime
          (RoundLog.mk r.started r.reads :: run.rounds)).bases = new ++ run.bases := by
        simp [Run.bases, hnew]
      rw [hb]
      dsimp only
      refine ⟨hsA, hsC, hsR, hso, by omega, ⟨⟨r.started, r.reads⟩ :: init, last, ?_, ?_, hlast⟩,
        ?_, ?_, ?_⟩
      · simp [hrounds]
      · intro rd hrd
        rcases List.mem_cons.mp hrd with h | h
        · subst h; simpa [hnew] using hlenW
        · exact hinit rd h
      · rw [List.pairwise_append]
        refine ⟨hn5, hpw, ?_⟩
        intro a ha b hb2
        have h1 := (hn6 a ha).2.1
        have h2 := (hbases b hb2).1
        omega
      · intro x hx
        rcases List.mem_append.mp hx with h | h
        · obtain ⟨q1, q2, q3, q4, q5, q6⟩ := hn6 x h
          exact ⟨q1, q3, q4, q6⟩
        · obtain ⟨q1, q2, q3, q4⟩ := hbases x h
          exact ⟨by omega, q2, q3, q4⟩
      · intro j hj1 hj2 hj3 hj4
        have hxj : xl < j := hj4 xl (List.mem_append_left _ hxl)
        exact hrest j hj1 (by omega) hj3 (fun x hx => hj4 x (List.mem_append_right _ hx))

/-- Cursor 3 and the all-ones array satisfy the invariants at the start of the run. -/
theorem complete_three (N : Nat) (A : List Nat) : Complete N 3 A := by
  intro p hp hpo hpc
  have h2 := Nat.Prime.two_le hp
  omega

/-- For a bound and a worker budget of at least 1 and fuel above the bound,
`findPrimesParallelRun` returns, with the properties listed in `roundLoop_spec`. -/
theorem findPrimesParallelRun_spec (vis : Nat → Bool) (fuel N : Nat) (W : Int) (hW : 1 ≤ W)
    (hfuel : N + 1 ≤ fuel) :
    ∃ run, findPrimesParallelRun vis fuel N W = .ok run ∧
      Sound N run.numbers ∧ Complete N run.lowest_prime run.numbers ∧
      ceilSqrt (N + 1) ≤ run.lowest_prime ∧ run.lowest_prime % 2 = 1 ∧
      (∃ init last, run.rounds = init ++ [last] ∧
        (∀ rd, rd ∈ init → (rd.started.length : Int) = W) ∧
        (last.started.length : Int) < W) ∧
      List.Pairwise (fun a b => a < b) run.bases ∧
      (∀ x, x ∈ run.bases → 3 ≤ x ∧ x < ceilSqrt (N + 1) ∧ x % 2 = 1 ∧
        (vis x = true → Nat.Prime x)) ∧
      (∀ j, j % 2 = 1 → 3 ≤ j → j < ceilSqrt (N + 1) →
        (∀ x, x ∈ run.bases → x < j) → run.numbers[j]? = some 0) := by
  have hR := ceilSqrt_le N
  obtain ⟨run, h1, h2, h3, h4, h5, _, h7, h8, h9, h10⟩ :=
    roundLoop_spec vis fuel N W hW hfuel fuel 3 (List.replicate (N + 1) 1) (le_refl _) (by norm_num)
      (sound_replicate N) (complete_three N _) (by omega)
  exact ⟨run, h1, h2, h3, h4, h5, h7, h8, h9, h10⟩

/-! ## The listing printed by `printPrimes` -/

theorem eq_of_pairwise_lt_of_mem_iff {l₁ l₂ : List Nat}
    (h1 : List.Pairwise (fun a b => a < b) l₁) (h2 : List.Pairwise (fun a b => a < b) l₂)
    (h : ∀ x, x ∈ l₁ ↔ x ∈ l₂) : l₁ = l₂ :=
  List.eq_of_perm_of_sorted ((List.perm_ext_iff_of_nodup h1.nodup h2.nodup).mpr h) h1 h2

/-- The printing loop returns; it appends to the lines printed the positions of its own
parity from `i` on whose flag is not 0, in increasing order, and counts them. -/
theorem printPrimesLoop_spec (A : List Nat) (L : Nat) (hlen : A.length = L) :
    ∀ fuel i (printed : List Nat) (cnt : Nat), L - i < fuel →
      ∃ X, printPrimesLoop A L fuel i printed cnt = .ok (printed ++ X, cnt + X.length) ∧
        List.Pairwise (fun a b => a < b) X ∧
        ∀ j, j ∈ X ↔ (i ≤ j ∧ j < L ∧ j % 2 = i % 2 ∧ A[j]? ≠ some 0) := by
  intro fuel
  induction fuel with
  | zero => intro i _ _ h; omega
  | succ fuel ih =>
    intro i printed cnt hfuel
    simp only [printPrimesLoop]
    by_cases hi : i < L
    · have hlt : i < A.length := by omega
      have hget : A[i]? = some A[i] := List.getElem?_eq_getElem hlt
      have hread : readAt A i = .ok A[i] := by simp [readAt, hget]
      simp only [hi, if_true, hread]
      by_cases hv : A[i] ≠ 0
      · obtain ⟨X, hX, hpw, hmem⟩ := ih (i + 2) (printed ++ [i]) (cnt + 1) (by omega)
        refine ⟨i :: X, ?_, ?_, ?_⟩
        · simp only [hv, ne_eq, not_false_eq_true, if_true, hX, List.length_cons]
          simp only [List.append_assoc, List.singleton_append]
          congr 2
          omega
        · rw [List.pairwise_cons]
          refine ⟨?_, hpw⟩
          intro y hy
          have := ((hmem y).mp hy).1
          omega
        · intro j
          rw [List.mem_cons, hmem j]
          constructor
          · rintro (h | ⟨h1, h2, h3, h4⟩)
            · subst h
              refine ⟨le_refl _, hi, rfl, ?_⟩
              rw [hget]
              simpa using hv
            · exact ⟨by omega, h2, by omega, h4⟩
          · rintro ⟨h1, h2, h3, h4⟩
            by_cases hji : j = i
            · left; exact hji
            · right; exact ⟨by omega, h2, by omega, h4⟩
      · obtain ⟨X, hX, hpw, hmem⟩ := ih (i + 2) printed cnt (by omega)
        refine ⟨X, ?_, hpw, ?_⟩
        · simp only [hv, if_false, hX]
        · intro j
          rw [hmem j]
          constructor
          · rintro ⟨h1, h2, h3, h4⟩
            exact ⟨by omega, h2, by omega, h4⟩
          · rintro ⟨h1, h2, h3, h4⟩
            have hji : j ≠ i := by
              intro h
              subst h
              apply h4
              rw [hget]
              simpa using hv
            exact ⟨by omega, h2, by omega, h4⟩
    · refine ⟨[], by simp [hi], List.Pairwise.nil, ?_⟩
      intro j
      simp only [List.not_mem_nil, false_iff]
      omega

/-- In an array with the final invariants, an odd position from 3 on holds 1 exactly when it
is prime, and holds 0 otherwise. -/
theorem final_odd {N c : Nat} {A : List Nat} (hs : Sound N A) (hc : Complete N c A)
    (hR : ceilSqrt (N + 1) ≤ c) (m : Nat) (h3 : 3 ≤ m) (hm : m ≤ N) (hodd : m % 2 = 1) :
    (A[m]? = some 1 ↔ Nat.Prime m) ∧ (A[m]? = some 0 ↔ ¬ Nat.Prime m) := by
  obtain ⟨hz, ho⟩ := final_shape hs hc hR m hm
  by_cases hp : Nat.Prime m
  · have h1 := ho ((odd_prime_iff_no_factor h3 hodd).mpr hp)
    simp [h1, hp]
  · have hex : ∃ p, Nat.Prime p ∧ p % 2 = 1 ∧ p * p ≤ m ∧ p ∣ m := by
      by_contra h
      exact hp ((odd_prime_iff_no_factor h3 hodd).mp h)
    have h0 := hz hex
    simp [h0, hp]

/-- Positions 0, 1 and 2 have no odd divisor from 3 on, so they stay 1. -/
theorem final_small {N : Nat} {A : List Nat} (hs : Sound N A) (m : Nat) (hm : m ≤ N)
    (h2 : m ≤ 2) : A[m]? = some 1 := by
  have hlt : m < A.length := by rw [hs.1]; omega
  have hget : A[m]? = some A[m] := List.getElem?_eq_getElem hlt
  rcases hs.2.1 m _ hget with h0 | h1
  · rw [h0] at hget
    obtain ⟨b, hb3, _, hsq, _⟩ := hs.2.2 m hget
    have : b * 3 ≤ b * b := Nat.mul_le_mul_left b hb3
    omega
  · rw [hget, h1]

/-- The listing of `printPrimes` on an array with the final invariants. -/
theorem printPrimes_final {N c fuel : Nat} {A : List Nat} (hN : 2 ≤ N) (hs : Sound N A)
    (hc : Complete N c A) (hR : ceilSqrt (N + 1) ≤ c) (hfuel : N + 1 ≤ fuel) :
    printPrimes fuel A (N + 1) = .ok (primesUpTo N, (primesUpTo N).length) ∧
      primesUpTo N = 2 :: (List.range (N + 1)).filter
        (fun i => decide (3 ≤ i ∧ i % 2 = 1 ∧ A[i]? ≠ some 0)) := by
  obtain ⟨X, hX, hpw, hmem⟩ := printPrimesLoop_spec A (N + 1) hs.1 fuel 3 [2] 1 (by omega)
  have hXprime : ∀ j, j ∈ X ↔ (3 ≤ j ∧ j ≤ N ∧ Nat.Prime j) := by
    intro j
    rw [hmem j]
    constructor
    · rintro ⟨h1, h2, h3, h4⟩
      refine ⟨h1, by omega, ?_⟩
      by_contra hnp
      exact h4 ((final_odd hs hc hR j h1 (by omega) (by omega)).2.mpr hnp)
    · rintro ⟨h1, h2, hp⟩
      have hodd : j % 2 = 1 := by
        rcases Nat.Prime.eq_two_or_odd hp with h | h
        · omega
        · exact h
      refine ⟨h1, by omega, by omega, ?_⟩
      rw [(final_odd hs hc hR j h1 h2 hodd).1.mpr hp]
      simp
  have hpw2 : List.Pairwise (fun a b => a < b) (2 :: X) := by
    rw [List.pairwise_cons]
    refine ⟨?_, hpw⟩
    intro y hy
    have := ((hXprime y).mp hy).1
    omega
  have hP : primesUpTo N = 2 :: X := by
    apply eq_of_pairwise_lt_of_mem_iff
    · exact (List.pairwise_lt_range _).filter _
    · exact hpw2
    · intro x
      simp only [primesUpTo, List.mem_filter, List.mem_range, decide_eq_true_eq, List.mem_cons,
        hXprime]
      constructor
      · rintro ⟨h1, hp⟩
        have := Nat.Prime.two_le hp
        by_cases hx2 : x = 2
        · left; exact hx2
        · right; exact ⟨by omega, by omega, hp⟩
      · rintro (h | ⟨h1, h2, hp⟩)
        · subst h; exact ⟨by omega, Nat.prime_two⟩
        · exact ⟨by omega, hp⟩
  constructor
  · unfold printPrimes
    rw [hX, hP]
    simp [Nat.add_comm]
  · rw [hP]
    congr 1
    apply eq_of_pairwise_lt_of_mem_iff hpw
    · exact (List.pairwise_lt_range _).filter _
    · intro x
      rw [hmem x]
      simp only [List.mem_filter, List.mem_range, decide_eq_true_eq]
      constructor
      · rintro ⟨h1, h2, h3, h4⟩
        exact ⟨h2, h1, by omega, h4⟩
      · rintro ⟨h1, h2, h3, h4⟩
        exact ⟨h2, h1, by omega, h4⟩

theorem computeMultiplesWrites_spec (b N : Nat) (hb : 0 < b) :
    ∀ fuel i, N + 1 - i < fuel →
      ∃ ws, computeMultiplesWrites b N fuel i = .ok ws ∧
        ∀ m, m ∈ ws ↔ (i ≤ m ∧ m ≤ N ∧ b ∣ m - i) := by
  intro fuel
  induction fuel with
  | zero => intro i h; omega
  | succ fuel ih =>
    intro i hfuel
    simp only [computeMultiplesWrites]
    by_cases hi : i < N + 1
    · obtain ⟨rest, hrest, hmem⟩ := ih (i + b) (by omega)
      simp only [hi, if_true, hrest]
      refine ⟨i :: rest, rfl, ?_⟩
      intro m
      rw [List.mem_cons, hmem m]
      constructor
      · rintro (h | ⟨h1, h2, h3⟩)
        · subst h
          exact ⟨le_refl _, by omega, by simp⟩
        · refine ⟨by omega, h2, ?_⟩
          have : m - i = (m - (i + b)) + b := by omega
          rw [this]
          exact Nat.dvd_add h3 (dvd_refl b)
      · rintro ⟨h1, h2, h3⟩
        by_cases hmi : m = i
        · left; exact hmi
        · right
          have hpos : 0 < m - i := by omega
          have hle : b ≤ m - i := Nat.le_of_dvd hpos h3
          refine ⟨by omega, h2, ?_⟩
          have : m - (i + b) = (m - i) - b := by omega
          rw [this]
          exact Nat.dvd_sub' h3 (dvd_refl b)
    · refine ⟨[], by simp [hi], ?_⟩
      intro m
      simp only [List.not_mem_nil, false_iff]
      omega

/-- The array a worker leaves is the array it found with 0 stored at the recorded positions,
in order. -/
theorem computeMultiplesLoop_eq_foldl (b N : Nat) :
    ∀ fuel i (numbers ws : List Nat), numbers.length = N + 1 →
      computeMultiplesWrites b N fuel i = .ok ws →
      computeMultiplesLoop b N fuel i numbers =
        .ok (ws.foldl (fun a k => a.set k 0) numbers) := by
  intro fuel
  induction fuel with
  | zero => intro i numbers ws _ h; simp [computeMultiplesWrites] at h
  | succ fuel ih =>
    intro i numbers ws hlen h
    simp only [computeMultiplesWrites] at h
    simp only [computeMultiplesLoop]
    by_cases hi : i < N + 1
    · simp only [hi, if_true] at h ⊢
      have hw : writeAt numbers i 0 = .ok (numbers.set i 0) := by
        exact writeAt_of_lt numbers i 0 (by omega)
      rw [hw]
      cases hrec : computeMultiplesWrites b N fuel (i + b) with
      | error e => simp [hrec] at h
      | ok rest =>
        simp only [hrec, Except.ok.injEq] at h
        subst h
        simp only [List.foldl_cons]
        exact ih (i + b) (numbers.set i 0) rest (by simp [hlen]) hrec
    · simp only [hi, if_false, Except.ok.injEq] at h ⊢
      subst h
      rfl

/-- The positions a worker with base `b ≥ 1` writes are the multiples of `b` from `b * b`
up to `N`. -/
theorem workerWrites_spec (fuel b N : Nat) (hb : 0 < b) (hfuel : N + 1 ≤ fuel) :
    ∃ ws, workerWrites fuel b N = .ok ws ∧ ∀ m, m ∈ ws ↔ (b * b ≤ m ∧ m ≤ N ∧ b ∣ m) := by
  have hbb : 0 < b * b := Nat.mul_pos hb hb
  obtain ⟨ws, hws, hmem⟩ := computeMultiplesWrites_spec b N hb fuel (b * b) (by omega)
  refine ⟨ws, hws, ?_⟩
  intro m
  rw [hmem m]
  constructor
  · rintro ⟨h1, h2, h3⟩
    exact ⟨h1, h2, (dvd_sub_sq_iff h1).mp h3⟩
  · rintro ⟨h1, h2, h3⟩
    exact ⟨h1, h2, (dvd_sub_sq_iff h1).mpr h3⟩

/-! ## Counting rounds and bases -/

theorem length_le_filter_range {l : List Nat} {p : Nat → Bool} {n : Nat}
    (hpw : List.Pairwise (fun a b => a < b) l) (h : ∀ x, x ∈ l → x < n ∧ p x = true) :
    l.length ≤ ((List.range n).filter p).length :=
  (List.subperm_of_subset hpw.nodup (fun x hx =>
    List.mem_filter.mpr ⟨List.mem_range.mpr (h x hx).1, (h x hx).2⟩)).length_le

theorem length_flatten_of_forall (w : Nat) : ∀ (L : List (List Nat)),
    (∀ l, l ∈ L → l.length = w) → L.flatten.length = w * L.length := by
  intro L
  induction L with
  | nil => intro _; simp
  | cons l t ih =>
    intro h
    rw [List.flatten_cons, List.length_append, h l (List.mem_cons_self _ _),
      ih (fun l' hl' => h l' (List.mem_cons_of_mem _ hl')), List.length_cons, Nat.mul_succ]
    omega

theorem ceilDiv_mono {a b : Nat} (w : Nat) (h : a ≤ b) : ceilDiv a w ≤ ceilDiv b w := by
  unfold ceilDiv
  exact Nat.div_le_div_right (by omega)

theorem ceilDiv_block (w k l : Nat) (hl : l < w) :
    ceilDiv (w * k + l) w = k + (if l = 0 then 0 else 1) := by
  unfold ceilDiv
  have hsucc : (k + 1 + 1) * w = w * k + w + w := by ring
  have hone : (k + 1) * w = w * k + w := by ring
  have hzero : k * w = w * k := by ring
  by_cases h0 : l = 0
  · subst h0
    simp only [if_true, Nat.add_zero]
    apply Nat.div_eq_of_lt_le
    · rw [hzero]; omega
    · rw [hone]; omega
  · simp only [h0, if_false]
    apply Nat.div_eq_of_lt_le
    · rw [hone]; omega
    · rw [hsucc]; omega

/-- In a run whose rounds before the last are full and whose last round is not, the number of
dispatching rounds is the number of bases divided by the budget, rounded up. -/
theorem dispatchRounds_eq {run : Run} {W : Int} (hW : 1 ≤ W) {init : List RoundLog}
    {last : RoundLog} (hr : run.rounds = init ++ [last])
    (hinit : ∀ rd, rd ∈ init → (rd.started.length : Int) = W)
    (hlast : (last.started.length : Int) < W) :
    dispatchRounds run = ceilDiv run.bases.length W.toNat ∧
      init.length ≤ run.bases.length := by
  have hw : (W.toNat : Int) = W := Int.toNat_of_nonneg (by omega)
  have hinit' : ∀ l, l ∈ init.map RoundLog.started → l.length = W.toNat := by
    intro l hl
    obtain ⟨rd, hrd, rfl⟩ := List.mem_map.mp hl
    have := hinit rd hrd
    omega
  have hlast' : last.started.length < W.toNat := by omega
  have hb : run.bases.length = W.toNat * init.length + last.started.length := by
    unfold Run.bases
    rw [hr, List.map_append, List.flatten_append, List.length_append,
      length_flatten_of_forall W.toNat _ hinit', List.length_map]
    simp
  have hfilter : init.filter (fun rd => decide (rd.started ≠ [])) = init := by
    rw [List.filter_eq_self]
    intro rd hrd
    have := hinit rd hrd
    have hne : rd.started ≠ [] := by
      intro h
      rw [h] at this
      simp at this
      omega
    simpa using hne
  have hd : dispatchRounds run = init.length + (if last.started.length = 0 then 0 else 1) := by
    unfold dispatchRounds
    rw [hr, List.filter_append, hfilter, List.length_append]
    congr 1
    by_cases h : last.started = []
    · simp [h]
    · have h2 : last.started.length ≠ 0 := by
        intro h3
        exact h (List.length_eq_zero.mp h3)
      simp [h, h2]
  constructor
  · rw [hd, hb, ceilDiv_block _ _ _ hlast']
  · rw [hb]
    have h1 : 1 ≤ W.toNat := by omega
    have : 1 * init.length ≤ W.toNat * init.length := Nat.mul_le_mul_right _ h1
    omega

theorem mem_of_split_before_last {α : Type} : ∀ (pre post init : List α) (rd last : α),
    pre ++ rd :: post = init ++ [last] → post ≠ [] → rd ∈ init := by
  intro pre
  induction pre with
  | nil =>
    intro post init rd last h hpost
    cases init with
    | nil =>
      simp only [List.nil_append, List.cons.injEq] at h
      exact absurd h.2 hpost
    | cons a t =>
      simp only [List.nil_append, List.cons_append, List.cons.injEq] at h
      rw [h.1]
      exact List.mem_cons_self _ _
  | cons x pre ih =>
    intro post init rd last h hpost
    cases init with
    | nil =>
      simp only [List.cons_append, List.nil_append, List.cons.injEq] at h
      have := h.2
      simp at this
    | cons a t =>
      simp only [List.cons_append, List.cons.injEq] at h
      exact List.mem_cons_of_mem _ (ih post t rd last h.2 hpost)

/-! ## The reads of a round -/

theorem findNextBase_mem_reads (vis : Nat → Bool) (N : Nat) (snapshot numbers : List Nat) :
    ∀ fuel c x lp reads, findNextBase vis N snapshot numbers fuel c = .ok (some x, lp, reads) →
      x ∈ reads := by
  intro fuel
  induction fuel with
  | zero => intro c x lp reads h; simp [findNextBase] at h
  | succ fuel ih =>
    intro c x lp reads h
    simp only [findNextBase] at h
    split at h
    · split at h
      · simp at h
      · split at h
        · simp only [Except.ok.injEq, Prod.mk.injEq, Option.some.injEq] at h
          obtain ⟨h1, _, h3⟩ := h
          subst h1 h3
          simp
        · split at h
          · simp at h
          · rename_i b' lp' reads' hrec
            simp only [Except.ok.injEq, Prod.mk.injEq] at h
            obtain ⟨h1, h2, h3⟩ := h
            subst h1 h2 h3
            exact List.mem_cons_of_mem _ (ih _ _ _ _ hrec)
    · simp at h

theorem readAt_ok {A : List Nat} {i v : Nat} (h : readAt A i = .ok v) : A[i]? = some v := by
  unfold readAt at h
  split at h
  · rename_i w hw
    simp only [Except.ok.injEq] at h
    rw [hw, h]
  · simp at h

/-- The positions read by one scan are the positions of the parity of the cursor from the
cursor up to the new cursor; all of them lie below the scan bound. -/
theorem findNextBase_trace (vis : Nat → Bool) (N : Nat) (snapshot numbers : List Nat) :
    ∀ fuel c b lp reads, findNextBase vis N snapshot numbers fuel c = .ok (b, lp, reads) →
      c ≤ lp ∧ lp % 2 = c % 2 ∧ List.Pairwise (fun x y => x < y) reads ∧
      (∀ j, j ∈ reads ↔ (c ≤ j ∧ j < lp ∧ j % 2 = c % 2)) ∧
      (∀ j, j ∈ reads → j < ceilSqrt (N + 1)) ∧
      (∀ x, b = some x → lp = x + 2) ∧ (b = none → ceilSqrt (N + 1) ≤ lp) := by
  intro fuel
  induction fuel with
  | zero => intro c b lp reads h; simp [findNextBase] at h
  | succ fuel ih =>
    intro c b lp reads h
    simp only [findNextBase] at h
    split at h
    · rename_i hc
      split at h
      · simp at h
      · split at h
        · simp only [Except.ok.injEq, Prod.mk.injEq] at h
          obtain ⟨h1, h2, h3⟩ := h
          subst h1 h2 h3
          refine ⟨by omega, by omega, by simp, ?_, ?_, ?_, by simp⟩
          · intro j
            simp only [List.mem_singleton]
            omega
          · intro j hj
            simp only [List.mem_singleton] at hj
            subst hj
            exact hc
          · intro x hx
            simp only [Option.some.injEq] at hx
            omega
        · split at h
          · simp at h
          · rename_i b' lp' reads' hrec
            simp only [Except.ok.injEq, Prod.mk.injEq] at h
            obtain ⟨h1, h2, h3⟩ := h
            subst h1 h2 h3
            obtain ⟨q1, q2, q3, q4, q5, q6, q7⟩ := ih _ _ _ _ hrec
            refine ⟨by omega, by omega, ?_, ?_, ?_, q6, q7⟩
            · rw [List.pairwise_cons]
              refine ⟨?_, q3⟩
              intro y hy
              have := ((q4 y).mp hy).1
              omega
            · intro j
              rw [List.mem_cons, q4 j]
              omega
            · intro j hj
              rcases List.mem_cons.mp hj with h1 | h1
              · subst h1; exact hc
              · exact q5 j h1
    · simp only [Except.ok.injEq, Prod.mk.injEq] at h
      obtain ⟨h1, h2, h3⟩ := h
      subst h1 h2 h3
      refine ⟨le_refl _, rfl, List.Pairwise.nil, ?_, by simp, by simp, fun _ => by omega⟩
      intro j
      simp only [List.not_mem_nil, false_iff]
      omega

/-- A position that a scan reads and does not claim holds 0. -/
theorem findNextBase_unclaimed (vis : Nat → Bool) (N : Nat) (snapshot numbers : List Nat)
    (hS : Sound N snapshot) (hA : Sound N numbers) (hk : ZerosKept snapshot numbers) :
    ∀ fuel c b lp reads, findNextBase vis N snapshot numbers fuel c = .ok (b, lp, reads) →
      ∀ j, j ∈ reads → b ≠ some j → numbers[j]? = some 0 := by
  intro fuel
  induction fuel with
  | zero => intro c b lp reads h; simp [findNextBase] at h
  | succ fuel ih =>
    intro c b lp reads h
    simp only [findNextBase] at h
    split at h
    · split at h
      · simp at h
      · rename_i v hread
        have hget := readAt_ok hread
        split at h
        · simp only [Except.ok.injEq, Prod.mk.injEq] at h
          obtain ⟨h1, h2, h3⟩ := h
          subst h1 h2 h3
          intro j hj hne
          simp only [List.mem_singleton] at hj
          subst hj
          exact absurd rfl hne
        · rename_i hv
          split at h
          · simp at h
          · rename_i b' lp' reads' hrec
            simp only [Except.ok.injEq, Prod.mk.injEq] at h
            obtain ⟨h1, h2, h3⟩ := h
            subst h1 h2 h3
            intro j hj hne
            rcases List.mem_cons.mp hj with h1 | h1
            · subst h1
              by_cases hvis : vis j = true
              · simp only [hvis, if_true] at hget
                rcases hA.2.1 j v hget with h0 | h1
                · rw [h0] at hget; exact hget
                · exact absurd h1 hv
              · simp only [hvis] at hget
                rcases hS.2.1 j v (by simpa using hget) with h0 | h1
                · rw [h0] at hget; exact hk j (by simpa using hget)
                · exact absurd h1 hv
            · exact ih _ _ _ _ hrec j h1 hne
    · simp only [Except.ok.injEq, Prod.mk.injEq] at h
      obtain ⟨h1, h2, h3⟩ := h
      subst h1 h2 h3
      intro j hj
      simp at hj

theorem map_fst_tag (n : Nat) (l : List Nat) :
    List.map Prod.fst (List.map (fun j => (j, n)) l) = l := by
  induction l with
  | nil => rfl
  | cons a t ih => simp only [List.map_cons, ih]

/-- The reads of one round, from slot `i` on: the positions read are the positions of the
parity of the cursor between the old and the new cursor, every claimed base is one of them,
and each read is tagged with the number of workers created before it. -/
theorem slotLoop_trace (vis : Nat → Bool) (fuel0 N : Nat) (W : Int) (snapshot : List Nat) :
    ∀ fuel i c (numbers started : List Nat) r,
      slotLoop vis fuel0 N W snapshot fuel i c numbers started = .ok r →
      c ≤ r.lowest_prime ∧ r.lowest_prime % 2 = c % 2 ∧
      List.Pairwise (fun x y => x < y) (r.reads.map Prod.fst) ∧
      (∀ j, j ∈ r.reads.map Prod.fst ↔ (c ≤ j ∧ j < r.lowest_prime ∧ j % 2 = c % 2)) ∧
      (∀ j, j ∈ r.reads.map Prod.fst → j < ceilSqrt (N + 1)) ∧
      ∃ new, r.started = started ++ new ∧ (∀ x, x ∈ new → x ∈ r.reads.map Prod.fst) ∧
        ∀ j k, (j, k) ∈ r.reads →
          k = started.length + (new.filter (fun x => decide (x < j))).length := by
  intro fuel
  induction fuel with
  | zero => intro i c numbers started r h; simp [slotLoop] at h
  | succ fuel ih =>
    intro i c numbers started r h
    simp only [slotLoop] at h
    split at h
    · split at h
      · simp at h
      · rename_i lp reads hscan
        simp only [Except.ok.injEq] at h
        subst h
        obtain ⟨q1, q2, q3, q4, q5, _, _⟩ := findNextBase_trace _ _ _ _ _ _ _ _ _ hscan
        have hmap := map_fst_tag started.length reads
        dsimp only
        rw [hmap]
        refine ⟨q1, q2, q3, q4, q5, [], by simp, by simp, ?_⟩
        intro j k hjk
        obtain ⟨a, _, ha⟩ := List.mem_map.mp hjk
        simp only [Prod.mk.injEq] at ha
        simp [← ha.2]
      · rename_i b lp reads hscan
        split at h
        · simp at h
        · split at h
          · simp at h
          · rename_i numbers' hcm _ r' hrec
            simp only [Except.ok.injEq] at h
            subst h
            obtain ⟨q1, q2, q3, q4, q5, q6, _⟩ := findNextBase_trace _ _ _ _ _ _ _ _ _ hscan
            have hlp : lp = b + 2 := q6 b rfl
            have hb : b ∈ reads := findNextBase_mem_reads _ _ _ _ _ _ _ _ _ hscan
            have hbq := (q4 b).mp hb
            obtain ⟨s1, s2, s3, s4, s5, new, hnew, hn1, hn2⟩ := ih _ _ _ _ _ hrec
            have hmap : List.map Prod.fst
                (List.map (fun j => (j, started.length)) reads ++ r'.reads) =
                reads ++ List.map Prod.fst r'.reads := by
              rw [List.map_append, map_fst_tag]
            dsimp only
            rw [hmap]
            refine ⟨by omega, by omega, ?_, ?_, ?_, b :: new, ?_, ?_, ?_⟩
            · rw [List.pairwise_append]
              refine ⟨q3, s3, ?_⟩
              intro x hx y hy
              have h1 := (q4 x).mp hx
              have h2 := (s4 y).mp hy
              omega
            · intro j
              rw [List.mem_append, q4 j, s4 j]
              omega
            · intro j hj
              rcases List.mem_append.mp hj with h1 | h1
              · exact q5 j h1
              · exact s5 j h1
            · simp [hnew]
            · intro x hx
              rcases List.mem_cons.mp hx with h1 | h1
              · subst h1
                exact List.mem_append_left _ hb
              · exact List.mem_append_right _ (hn1 x h1)
            · intro j k hjk
              rcases List.mem_append.mp hjk with h1 | h1
              · obtain ⟨a, ha1, ha2⟩ := List.mem_map.mp h1
                simp only [Prod.mk.injEq] at ha2
                obtain ⟨ha2, ha3⟩ := ha2
                subst ha2
                have haq := (q4 a).mp ha1
                have hfil : (b :: new).filter (fun x => decide (x < a)) = [] := by
                  rw [List.filter_eq_nil_iff]
                  intro x hx
                  simp only [decide_eq_true_eq, not_lt]
                  rcases List.mem_cons.mp hx with h2 | h2
                  · subst h2; omega
                  · have := (s4 x).mp (hn1 x h2)
                    omega
                rw [hfil, ← ha3]
                simp
              · have hj : j ∈ List.map Prod.fst r'.reads := List.mem_map.mpr ⟨(j, k), h1, rfl⟩
                have hjq := (s4 j).mp hj
                have hbj : b < j := by omega
                have hk2 := hn2 j k h1
                rw [List.length_append, List.length_singleton] at hk2
                rw [List.filter_cons]
                simp only [hbj, decide_True, if_true, List.length_cons]
                omega
    · simp only [Except.ok.injEq] at h
      subst h
      dsimp only
      refine ⟨le_refl _, rfl, by simp, ?_, by simp, [], by simp, by simp, by simp⟩
      intro j
      simp only [List.map_nil, List.not_mem_nil, false_iff]
      omega

/-- The array side of one round: the array stays sound, positions holding 0 keep it, and a
position that was read and not claimed holds 0 after the round. -/
theorem slotLoop_unclaimed (vis : Nat → Bool) (fuel0 N : Nat) (W : Int) (snapshot : List Nat)
    (hS : Sound N snapshot) (hf0 : N + 1 ≤ fuel0) :
    ∀ fuel i c (numbers started : List Nat) r, 3 ≤ c → c % 2 = 1 → Sound N numbers →
      ZerosKept snapshot numbers →
      slotLoop vis fuel0 N W snapshot fuel i c numbers started = .ok r →
      Sound N r.numbers ∧ ZerosKept numbers r.numbers ∧
      ∀ j, j ∈ r.reads.map Prod.fst → j ∉ r.started → r.numbers[j]? = some 0 := by
  intro fuel
  induction fuel with
  | zero => intro i c numbers started r _ _ _ _ h; simp [slotLoop] at h
  | succ fuel ih =>
    intro i c numbers started r h3 hodd hA hk h
    simp only [slotLoop] at h
    split at h
    · split at h
      · simp at h
      · rename_i lp reads hscan
        simp only [Except.ok.injEq] at h
        subst h
        dsimp only
        refine ⟨hA, ZerosKept.refl _, ?_⟩
        intro j hj _
        rw [map_fst_tag] at hj
        have hj' : j ∈ reads := hj
        exact findNextBase_unclaimed vis N snapshot numbers hS hA hk _ _ _ _ _ hscan j hj'
          (by simp)
      · rename_i b lp reads hscan
        split at h
        · simp at h
        · split at h
          · simp at h
          · rename_i numbers' hcm _ r' hrec
            simp only [Except.ok.injEq] at h
            subst h
            dsimp only
            obtain ⟨q1, q2, q3, q4, q5, q6, _⟩ := findNextBase_trace _ _ _ _ _ _ _ _ _ hscan
            have hlp : lp = b + 2 := q6 b rfl
            have hb : b ∈ reads := findNextBase_mem_reads _ _ _ _ _ _ _ _ _ hscan
            have hbq := (q4 b).mp hb
            obtain ⟨n2, hn2, hA', hk', _⟩ :=
              computeMultiples_sound fuel0 b N numbers (by omega) (by omega) hA hf0
            rw [hcm] at hn2
            have hnn : numbers' = n2 := Except.ok.inj hn2
            subst hnn
            obtain ⟨t1, t2, t3⟩ := ih _ _ _ _ _ (by omega) (by omega) hA' (hk.trans hk') hrec
            obtain ⟨_, _, _, _, _, new, hnew, _, _⟩ := slotLoop_trace _ _ _ _ _ _ _ _ _ _ _ hrec
            refine ⟨t1, hk'.trans t2, ?_⟩
            intro j hj hnot
            rw [List.map_append, map_fst_tag] at hj
            rcases List.mem_append.mp hj with h1 | h1
            · have hj' : j ∈ reads := h1
              have hjb : j ≠ b := by
                intro hjb
                apply hnot
                rw [hnew, hjb]
                simp
              have hz := findNextBase_unclaimed vis N snapshot numbers hS hA hk _ _ _ _ _ hscan
                j hj' (by simpa using fun h => hjb h.symm)
              exact t2 j (hk' j hz)
            · exact t3 j h1 hnot
    · simp only [Except.ok.injEq] at h
      subst h
      dsimp only
      refine ⟨hA, ZerosKept.refl _, ?_⟩
      intro j hj
      simp at hj

/-- The reads of a whole run from cursor `c` on: the positions read are the odd positions
between `c` and the final cursor, each read once and in increasing order, all below the scan
bound; a position read and never claimed holds 0 in the array returned; within a round every
base was read and each read is tagged with the number of bases of the round below it. -/
theorem roundLoop_trace (vis : Nat → Bool) (fuel0 N : Nat) (W : Int) (hf0 : N + 1 ≤ fuel0) :
    ∀ fuel (numbers : List Nat) c run, 3 ≤ c → c % 2 = 1 → Sound N numbers →
      roundLoop vis fuel0 N W fuel numbers c = .ok run →
      c ≤ run.lowest_prime ∧ run.lowest_prime % 2 = 1 ∧
      List.Pairwise (fun x y => x < y) run.readPositions ∧
      (∀ j, j ∈ run.readPositions ↔ (c ≤ j ∧ j < run.lowest_prime ∧ j % 2 = 1)) ∧
      (∀ j, j ∈ run.readPositions → j < ceilSqrt (N + 1)) ∧
      (∀ j, j ∈ run.readPositions → j ∉ run.bases → run.numbers[j]? = some 0) ∧
      ZerosKept numbers run.numbers ∧ Sound N run.numbers ∧
      ∀ rd, rd ∈ run.rounds →
        List.Pairwise (fun x y => x < y) (rd.reads.map Prod.fst) ∧
        (∀ x, x ∈ rd.started → x ∈ rd.reads.map Prod.fst) ∧
        ∀ j k, (j, k) ∈ rd.reads →
          k = (rd.started.filter (fun x => decide (x < j))).length := by
  intro fuel
  induction fuel with
  | zero => intro numbers c run _ _ _ h; simp [roundLoop] at h
  | succ fuel ih =>
    intro numbers c run h3 hodd hA h
    simp only [roundLoop] at h
    split at h
    · simp at h
    · rename_i r hslot
      obtain ⟨s1, s2, s3, s4, s5, new, hnew, hn1, hn2⟩ :=
        slotLoop_trace _ _ _ _ _ _ _ _ _ _ _ hslot
      obtain ⟨u1, u2, u3⟩ :=
        slotLoop_unclaimed vis fuel0 N W numbers hA hf0 _ _ _ _ _ _ h3 hodd hA
          (ZerosKept.refl _) hslot
      simp only [List.nil_append] at hnew
      simp only [List.length_nil, Nat.zero_add] at hn2
      have hround : List.Pairwise (fun x y => x < y) (r.reads.map Prod.fst) ∧
          (∀ x, x ∈ r.started → x ∈ r.reads.map Prod.fst) ∧
          ∀ j k, (j, k) ∈ r.reads →
            k = (r.started.filter (fun x => decide (x < j))).length := by
        refine ⟨s3, ?_, ?_⟩
        · intro x hx
          rw [hnew] at hx
          exact hn1 x hx
        · intro j k hjk
          rw [hnew]
          exact hn2 j k hjk
      split at h
      · simp only [Except.ok.injEq] at h
        subst h
        have hpos : (Run.mk r.numbers r.lowest_prime [RoundLog.mk r.started r.reads]).readPositions
            = r.reads.map Prod.fst := by
          simp [Run.readPositions]
        have hbs : (Run.mk r.numbers r.lowest_prime [RoundLog.mk r.started r.reads]).bases
            = r.started := by
          simp [Run.bases]
        rw [hpos, hbs]
        dsimp only
        refine ⟨s1, by omega, s3, ?_, s5, u3, u2, u1, ?_⟩
        · intro j
          rw [s4 j]
          omega
        · intro rd hrd
          simp only [List.mem_singleton] at hrd
          subst hrd
          exact hround
      · split at h
        · simp at h
        · rename_i run' hrec
          simp only [Except.ok.injEq] at h
          subst h
          obtain ⟨v1, v2, v3, v4, v5, v6, v7, v8, v9⟩ :=
            ih _ _ _ (by omega) (by omega) u1 hrec
          have hpos : (Run.mk run'.numbers run'.lowest_prime
              (RoundLog.mk r.started r.reads :: run'.rounds)).readPositions
              = r.reads.map Prod.fst ++ run'.readPositions := by
            simp [Run.readPositions]
          have hbs : (Run.mk run'.numbers run'.lowest_prime
              (RoundLog.mk r.started r.reads :: run'.rounds)).bases
              = r.started ++ run'.bases := by
            simp [Run.bases]
          rw [hpos, hbs]
          dsimp only
          refine ⟨by omega, v2, ?_, ?_, ?_, ?_, u2.trans v7, v8, ?_⟩
          · rw [List.pairwise_append]
            refine ⟨s3, v3, ?_⟩
            intro x hx y hy
            have h1 := (s4 x).mp hx
            have h2 := (v4 y).mp hy
            omega
          · intro j
            rw [List.mem_append, s4 j, v4 j]
            omega
          · intro j hj
            rcases List.mem_append.mp hj with h1 | h1
            · exact s5 j h1
            · exact v5 j h1
          · intro j hj hnot
            rcases List.mem_append.mp hj with h1 | h1
            · exact v7 j (u3 j h1 (fun hx => hnot (List.mem_append_left _ hx)))
            · exact v6 j h1 (fun hx => hnot (List.mem_append_right _ hx))
          · intro rd hrd
            rcases List.mem_cons.mp hrd with h1 | h1
            · subst h1
              exact hround
            · exact v9 rd h1

/-- The trace of the reads of `findPrimesParallelRun`: the scheduler reads exactly the odd
positions from 3 below the scan bound, each once and in increasing order, and every one of
them that is never claimed holds 0 in the array returned. -/
theorem findPrimesParallelRun_trace (vis : Nat → Bool) (fuel N : Nat) (W : Int) (hW : 1 ≤ W)
    (hfuel : N + 1 ≤ fuel) {run : Run} (hrun : findPrimesParallelRun vis fuel N W = .ok run) :
    run.readPositions = scanPositions N ∧
      (∀ j, j ∈ run.readPositions → j ∉ run.bases → run.numbers[j]? = some 0) ∧
      3 ≤ run.lowest_prime ∧ run.lowest_prime % 2 = 1 ∧
      ∀ rd, rd ∈ run.rounds →
        List.Pairwise (fun x y => x < y) (rd.reads.map Prod.fst) ∧
        (∀ x, x ∈ rd.started → x ∈ rd.reads.map Prod.fst) ∧
        ∀ j k, (j, k) ∈ rd.reads →
          k = (rd.started.filter (fun x => decide (x < j))).length := by
  obtain ⟨run2, hrun2, _, _, hR, _⟩ := findPrimesParallelRun_spec vis fuel N W hW hfuel
  rw [hrun] at hrun2
  have hrr : run = run2 := Except.ok.inj hrun2
  subst hrr
  obtain ⟨v1, v2, v3, v4, v5, v6, _, _, v9⟩ :=
    roundLoop_trace vis fuel N W hfuel fuel _ 3 run (le_refl _) (by norm_num)
      (sound_replicate N) hrun
  refine ⟨?_, v6, v1, v2, v9⟩
  apply eq_of_pairwise_lt_of_mem_iff v3
  · exact (List.pairwise_lt_range _).filter _
  · intro j
    rw [v4 j]
    simp only [scanPositions, List.mem_filter, List.mem_range, decide_eq_true_eq]
    constructor
    · rintro ⟨h1, h2, h3⟩
      exact ⟨v5 j ((v4 j).mpr ⟨h1, h2, h3⟩), h1, h3⟩
    · rintro ⟨h1, h2, h3⟩
      exact ⟨h2, by omega, h3⟩

/-- Every odd prime below the scan bound is claimed as a base. -/
theorem odd_primes_claimed (vis : Nat → Bool) (fuel N : Nat) (W : Int) (hW : 1 ≤ W)
    (hfuel : N + 1 ≤ fuel) {run : Run} (hrun : findPrimesParallelRun vis fuel N W = .ok run)
    {p : Nat} (hp : Nat.Prime p) (hodd : p % 2 = 1) (hsq : p * p ≤ N) : p ∈ run.bases := by
  obtain ⟨run2, hrun2, hs, hc, hR, _⟩ := findPrimesParallelRun_spec vis fuel N W hW hfuel
  rw [hrun] at hrun2
  have hrr : run = run2 := Except.ok.inj hrun2
  subst hrr
  obtain ⟨hpos, hun, _⟩ := findPrimesParallelRun_trace vis fuel N W hW hfuel hrun
  have h3 : 3 ≤ p := by
    have := Nat.Prime.two_le hp
    omega
  have hlt : p < ceilSqrt (N + 1) := (lt_ceilSqrt_iff N p).mpr hsq
  have hmem : p ∈ run.readPositions := by
    rw [hpos]
    simp only [scanPositions, List.mem_filter, List.mem_range, decide_eq_true_eq]
    exact ⟨hlt, h3, hodd⟩
  by_contra hnot
  have hz := hun p hmem hnot
  have hone := (final_odd hs hc hR p h3 (le_of_lt_ceilSqrt hlt) hodd).1.mpr hp
  rw [hz] at hone
  simp at hone

/-! ## Workers on arbitrary arrays: idempotence and order -/

theorem findPrimesParallel_of_run {vis : Nat → Bool} {fuel N : Nat} {W : Int} {run : Run}
    (h : findPrimesParallelRun vis fuel N W = .ok run) :
    findPrimesParallel vis fuel N W = .ok run.numbers := by
  simp [findPrimesParallel, h]

end Exact

/-! ## The embedding agrees with the reference loops within `int` -/

/-- A value within `[0, 2^31 - 1]` is its own `int` value. -/
theorem wrapInt_of_le {x : Int} (h0 : 0 ≤ x) (h1 : x ≤ 2147483647) : wrapInt x = x := by
  unfold wrapInt
  omega

theorem wrapInt_succ {N : Nat} (hN : N + 1 ≤ intMax) :
    wrapInt ((N : Int) + 1) = ((N + 1 : Nat) : Int) := by
  unfold intMax at hN
  rw [wrapInt_of_le (by omega) (by omega)]
  push_cast
  rfl

theorem ceilSqrtInt_succ {N : Nat} (hN : N + 1 ≤ intMax) :
    ceilSqrtInt (wrapInt ((N : Int) + 1)) = (ceilSqrt (N + 1) : Int) := by
  rw [wrapInt_succ hN]
  unfold ceilSqrtInt
  have h : ¬ (((N + 1 : Nat) : Int) < 0) := by omega
  rw [if_neg h, Int.toNat_ofNat]

theorem readAt_eq_exact (numbers : List Nat) (i : Nat) :
    readAt numbers (i : Int) = Exact.readAt numbers i := by
  have h : ¬ ((i : Int) < 0) := by omega
  simp only [readAt, Exact.readAt, h, if_false, Int.toNat_ofNat]

theorem writeAt_eq_exact (numbers : List Nat) (i v : Nat) :
    writeAt numbers (i : Int) v = Exact.writeAt numbers i v := by
  have h : ¬ ((i : Int) < 0) := by omega
  simp only [writeAt, h, if_false, Int.toNat_ofNat]
  by_cases hi : i < numbers.length
  · rw [Exact.writeAt_of_lt numbers i v hi, if_pos hi]
  · rw [Exact.writeAt_of_ge numbers i v (by omega), if_neg hi]

theorem computeMultiplesLoop_eq_exact (b N : Nat) (hN : N + 1 ≤ intMax)
    (hNb : N + b ≤ intMax) :
    ∀ fuel (i : Nat) (numbers : List Nat), i ≤ intMax →
      computeMultiplesLoop b N fuel (i : Int) numbers =
        Exact.computeMultiplesLoop b N fuel i numbers := by
  intro fuel
  induction fuel with
  | zero => intro i numbers _; rfl
  | succ fuel ih =>
    intro i numbers hi
    simp only [computeMultiplesLoop, Exact.computeMultiplesLoop, wrapInt_succ hN,
      writeAt_eq_exact]
    by_cases hlt : i < N + 1
    · have hlt' : (i : Int) < ((N + 1 : Nat) : Int) := by exact_mod_cast hlt
      rw [if_pos hlt', if_pos hlt]
      cases Exact.writeAt numbers i 0 with
      | error e => rfl
      | ok numbers' =>
        have hs : wrapInt ((i : Int) + (b : Int)) = ((i + b : Nat) : Int) := by
          unfold intMax at hNb
          rw [wrapInt_of_le (by omega) (by omega)]
          push_cast
          rfl
        simp only [hs]
        exact ih (i + b) numbers' (by omega)
    · have hlt' : ¬ (i : Int) < ((N + 1 : Nat) : Int) := by exact_mod_cast hlt
      rw [if_neg hlt', if_neg hlt]

theorem wrapInt_sq {b : Nat} (hbb : b * b ≤ intMax) :
    wrapInt ((b : Int) * (b : Int)) = ((b * b : Nat) : Int) := by
  unfold intMax at hbb
  have h : (b : Int) * (b : Int) = ((b * b : Nat) : Int) := by push_cast; rfl
  rw [h, wrapInt_of_le (by omega) (by omega)]

/-- Within `int` the worker is the reference worker. -/
theorem computeMultiples_eq_exact (fuel b N : Nat) (numbers : List Nat)
    (hbb : b * b ≤ intMax) (hN : N + 1 ≤ intMax) (hNb : N + b ≤ intMax) :
    computeMultiples fuel b N numbers = Exact.computeMultiples fuel b N numbers := by
  unfold computeMultiples Exact.computeMultiples
  rw [wrapInt_sq hbb]
  exact computeMultiplesLoop_eq_exact b N hN hNb fuel (b * b) numbers hbb

theorem computeMultiplesWrites_eq_exact (b N : Nat) (hN : N + 1 ≤ intMax)
    (hNb : N + b ≤ intMax) :
    ∀ fuel (i : Nat), i ≤ intMax →
      computeMultiplesWrites b N fuel (i : Int) = Exact.computeMultiplesWrites b N fuel i := by
  intro fuel
  induction fuel with
  | zero => intro i _; rfl
  | succ fuel ih =>
    intro i hi
    simp only [computeMultiplesWrites, Exact.computeMultiplesWrites, wrapInt_succ hN]
    by_cases hlt : i < N + 1
    · have hlt' : (i : Int) < ((N + 1 : Nat) : Int) := by exact_mod_cast hlt
      have hneg : ¬ ((i : Int) < 0) := by omega
      have hs : wrapInt ((i : Int) + (b : Int)) = ((i + b : Nat) : Int) := by
        unfold intMax at hNb
        rw [wrapInt_of_le (by omega) (by omega)]
        push_cast
        rfl
      rw [if_pos hlt', if_pos hlt, if_neg hneg, hs, ih (i + b) (by omega), Int.toNat_ofNat]
    · have hlt' : ¬ (i : Int) < ((N + 1 : Nat) : Int) := by exact_mod_cast hlt
      rw [if_neg hlt', if_neg hlt]

/-- Within `int` the positions written are those of the reference worker. -/
theorem workerWrites_eq_exact (fuel b N : Nat)
    (hbb : b * b ≤ intMax) (hN : N + 1 ≤ intMax) (hNb : N + b ≤ intMax) :
    workerWrites fuel b N = Exact.workerWrites fuel b N := by
  unfold workerWrites Exact.workerWrites
  rw [wrapInt_sq hbb]
  exact computeMultiplesWrites_eq_exact b N hN hNb fuel (b * b) hbb

theorem findNextBase_eq_exact (vis : Nat → Bool) (N : Nat) (snapshot numbers : List Nat)
    (hN : N + 1 ≤ intMax) :
    ∀ fuel lowest_prime, findNextBase vis N snapshot numbers fuel lowest_prime =
      Exact.findNextBase vis N snapshot numbers fuel lowest_prime := by
  intro fuel
  induction fuel with
  | zero => intro lp; rfl
  | succ fuel ih =>
    intro lp
    simp only [findNextBase, Exact.findNextBase, ceilSqrtInt_succ hN, readAt_eq_exact,
      Nat.cast_lt, ih]

/-- A base claimed by the scan lies below the scan bound. -/
theorem base_lt_bound {vis : Nat → Bool} {N : Nat} {snapshot numbers : List Nat}
    {fuel c b lp : Nat} {reads : List Nat}
    (h : Exact.findNextBase vis N snapshot numbers fuel c = .ok (some b, lp, reads)) :
    b < ceilSqrt (N + 1) :=
  (Exact.findNextBase_trace vis N snapshot numbers fuel c _ lp reads h).2.2.2.2.1 b
    (Exact.findNextBase_mem_reads vis N snapshot numbers fuel c b lp reads h)

theorem slotLoop_eq_exact (vis : Nat → Bool) (fuel0 N : Nat) (W : Int) (snapshot : List Nat)
    (hR : N + ceilSqrt (N + 1) ≤ intMax) :
    ∀ fuel i lowest_prime numbers started,
      slotLoop vis fuel0 N W snapshot fuel i lowest_prime numbers started =
        Exact.slotLoop vis fuel0 N W snapshot fuel i lowest_prime numbers started := by
  have hN : N + 1 ≤ intMax := by
    have := (Exact.lt_ceilSqrt_iff N 0).mpr (by omega)
    omega
  intro fuel
  induction fuel with
  | zero => intro i lp numbers started; rfl
  | succ fuel ih =>
    intro i lp numbers started
    simp only [slotLoop, Exact.slotLoop, findNextBase_eq_exact vis N snapshot numbers hN]
    by_cases hi : (i : Int) < W
    · rw [if_pos hi, if_pos hi]
      cases hfn : Exact.findNextBase vis N snapshot numbers fuel0 lp with
      | error e => rfl
      | ok res =>
        obtain ⟨o, lp', reads⟩ := res
        cases o with
        | none => rfl
        | some b =>
          have hb := base_lt_bound hfn
          have hsq := (Exact.lt_ceilSqrt_iff N b).mp hb
          have hcm := computeMultiples_eq_exact fuel0 b N numbers (by omega) hN (by omega)
          simp only [hcm]
          cases Exact.computeMultiples fuel0 b N numbers with
          | error e => rfl
          | ok numbers' =>
            simp only [ih]
    · rw [if_neg hi, if_neg hi]

theorem roundLoop_eq_exact (vis : Nat → Bool) (fuel0 N : Nat) (W : Int)
    (hR : N + ceilSqrt (N + 1) ≤ intMax) :
    ∀ fuel numbers lowest_prime,
      roundLoop vis fuel0 N W fuel numbers lowest_prime =
        Exact.roundLoop vis fuel0 N W fuel numbers lowest_prime := by
  intro fuel
  induction fuel with
  | zero => intro numbers lp; rfl
  | succ fuel ih =>
    intro numbers lp
    simp only [roundLoop, Exact.roundLoop, slotLoop_eq_exact vis fuel0 N W numbers hR, ih]

/-- Within `int` a run of the scheduler is the reference run, trace included. -/
theorem findPrimesParallelRun_eq_exact (vis : Nat → Bool) (fuel N : Nat) (W : Int)
    (hR : N + ceilSqrt (N + 1) ≤ intMax) :
    findPrimesParallelRun vis fuel N W = Exact.findPrimesParallelRun vis fuel N W := by
  have hN : N + 1 ≤ intMax := by
    have := (Exact.lt_ceilSqrt_iff N 0).mpr (by omega)
    omega
  unfold findPrimesParallelRun Exact.findPrimesParallelRun
  rw [roundLoop_eq_exact vis fuel N W hR, wrapInt_succ hN, Int.toNat_ofNat]

theorem findPrimesParallel_eq_exact (vis : Nat → Bool) (fuel N : Nat) (W : Int)
    (hR : N + ceilSqrt (N + 1) ≤ intMax) :
    findPrimesParallel vis fuel N W = Exact.findPrimesParallel vis fuel N W := by
  unfold findPrimesParallel Exact.findPrimesParallel
  rw [findPrimesParallelRun_eq_exact vis fuel N W hR]

theorem printPrimesLoop_eq_exact (numbers : List Nat) (n : Nat) :
    ∀ fuel i printed count, printPrimesLoop numbers (n : Int) fuel i printed count =
      Exact.printPrimesLoop numbers n fuel i printed count := by
  intro fuel
  induction fuel with
  | zero => intro i printed count; rfl
  | succ fuel ih =>
    intro i printed count
    simp only [printPrimesLoop, Exact.printPrimesLoop, readAt_eq_exact, Nat.cast_lt, ih]

/-- With a natural number for `length`, `printPrimes` is the reference `printPrimes`. -/
theorem printPrimes_eq_exact (fuel : Nat) (numbers : List Nat) (n : Nat) :
    printPrimes fuel numbers (n : Int) = Exact.printPrimes fuel numbers n := by
  unfold printPrimes Exact.printPrimes
  exact printPrimesLoop_eq_exact numbers n fuel 3 [2] 1

/-- The bound of a run within `int` leaves room for `largest_number + 1`. -/
theorem succ_le_intMax {N : Nat} (hR : N + ceilSqrt (N + 1) ≤ intMax) : N + 1 ≤ intMax := by
  have := (Exact.lt_ceilSqrt_iff N 0).mpr (by omega)
  omega

/-! ## Beyond the `int` range

Three runs in which an `int` expression wraps: the range hypotheses of the statements below
cannot be dropped. -/

/-- At `largest_number = 2^31 - 1` the sum `largest_number + 1` wraps to `-2^31`: no flag is
set up, nothing is scanned, and `main` prints 2 alone with the count 1. -/
theorem main_at_intMax :
    main atoiC eager 3 ["./sieve", "2147483647", "1"] = .finished [2] 1 := by
  decide

/-- At `base_number = 65536` the product `base_number * base_number` wraps to 0 and the worker
clears `numbers[0]`. -/
theorem computeMultiples_at_65536 :
    computeMultiples 3 65536 10 (List.replicate 11 1) =
      .ok [0, 1, 1, 1, 1, 1, 1, 1, 1, 1, 1] := by
  decide

/-- At `base_number = 46341` the product `base_number * base_number` wraps to a negative
number and the first store of the worker is outside the array. -/
theorem computeMultiples_at_46341 :
    computeMultiples 3 46341 10 (List.replicate 11 1) = .error .outOfBounds := by
  decide

/-! ## A worker budget of at most 0 -/

theorem roundLoop_no_budget (vis : Nat → Bool) (fuel0 N : Nat) (W : Int) (hW : W ≤ 0) :
    ∀ fuel (numbers : List Nat) c,
      roundLoop vis fuel0 N W fuel numbers c = .error .outOfFuel := by
  intro fuel
  induction fuel with
  | zero => intro numbers c; rfl
  | succ fuel ih =>
    intro numbers c
    have hi : ¬ ((0 : Nat) : Int) < W := by
      simp only [Nat.cast_zero]
      omega
    simp only [roundLoop]
    cases fuel0 with
    | zero => rfl
    | succ f =>
      rw [slotLoop, if_neg hi]
      simp only [Bool.false_eq_true, if_false]
      rw [ih numbers c]

/-! ## The claims -/

/-- C2, as stated, fails: for `N = 4, W = 1` the array returned is all ones, so position 4
is flagged although 4 is not prime. -/
theorem C2_counterexample :
    (∀ vis : Nat → Bool, findPrimesParallel vis 5 4 1 = .ok [1, 1, 1, 1, 1]) ∧
      ([1, 1, 1, 1, 1] : List Nat)[4]? = some 1 ∧ ¬ Nat.Prime 4 := by
  refine ⟨fun vis => ?_, rfl, by decide⟩
  rw [findPrimesParallel_eq_exact vis 5 4 1 (by decide)]
  rfl

/-- C2, amended: for every bound `N ≥ 2` within the `int` range
(`N + ceil(sqrt(N + 1)) ≤ 2^31 - 1`) and worker budget `W ≥ 1`, in the array returned the
positions `i` with `2 ≤ i ≤ N` that are 2 or odd and hold 1 are exactly the primes up to
`N`; odd positions that are not prime hold 0.  Nothing is said about even positions above 2. -/
theorem C2_flags_at_two_and_odd_positions (vis : Nat → Bool) (fuel N : Nat) (W : Int)
    (hN : 2 ≤ N) (hW : 1 ≤ W) (hR : N + ceilSqrt (N + 1) ≤ intMax) (hfuel : N + 1 ≤ fuel) :
    ∃ numbers, findPrimesParallel vis fuel N W = .ok numbers ∧ numbers.length = N + 1 ∧
      ∀ i, 2 ≤ i → i ≤ N →
        (((i = 2 ∨ i % 2 = 1) ∧ numbers[i]? = some 1) ↔ Nat.Prime i) ∧
        (i % 2 = 1 → (numbers[i]? = some 0 ↔ ¬ Nat.Prime i)) := by
  rw [findPrimesParallel_eq_exact vis fuel N W hR]
  obtain ⟨run, hrun, hs, hc, hc', _⟩ := Exact.findPrimesParallelRun_spec vis fuel N W hW hfuel
  refine ⟨run.numbers, Exact.findPrimesParallel_of_run hrun, hs.1, ?_⟩
  intro i h2 hi
  constructor
  · constructor
    · rintro ⟨h | h, h1⟩
      · subst h; exact Nat.prime_two
      · exact (Exact.final_odd hs hc hc' i (by omega) hi h).1.mp h1
    · intro hp
      rcases Nat.Prime.eq_two_or_odd hp with h | h
      · subst h
        exact ⟨Or.inl rfl, Exact.final_small hs 2 hi (le_refl _)⟩
      · exact ⟨Or.inr h, (Exact.final_odd hs hc hc' i (by omega) hi h).1.mpr hp⟩
  · intro h
    exact (Exact.final_odd hs hc hc' i (by omega) hi h).2

/-- C2 amended, at `N = 30, W = 2`. -/
theorem C2_flags_at_two_and_odd_positions_witness :
    ∃ numbers, findPrimesParallel eager 31 30 2 = .ok numbers ∧
      numbers.length = 30 + 1 ∧
      ∀ i, 2 ≤ i → i ≤ 30 →
        (((i = 2 ∨ i % 2 = 1) ∧ numbers[i]? = some 1) ↔ Nat.Prime i) ∧
        (i % 2 = 1 → (numbers[i]? = some 0 ↔ ¬ Nat.Prime i)) :=
  C2_flags_at_two_and_odd_positions eager 31 30 2 (by decide) (by decide) (by decide)
    (by decide)

/-- C4, as stated, fails: for `N = 289, W = 7`, when the workers of a round take effect only
at the join, the first round claims 3, 5, 7, 9, 11, 13, 15 and a second round claims 17: two
rounds dispatch workers, while the 7 primes up to `sqrt 289 = 17` give `ceil(7 / 7) = 1`. -/
theorem C4_counterexample :
    (findPrimesParallelRun deferred 290 289 7).map
        (fun run => (dispatchRounds run, run.rounds.map RoundLog.started)) =
      .ok (2, [[3, 5, 7, 9, 11, 13, 15], [17]]) ∧
      basePrimeCount 289 = 7 ∧ ceilDiv 7 (7 : Int).toNat = 1 ∧ ¬ (2 ≤ 1) := by
  rw [findPrimesParallelRun_eq_exact deferred 290 289 7 (by decide)]
  decide!

/-- C4, amended: for every bound `N ≥ 2` within the `int` range
(`N + ceil(sqrt(N + 1)) ≤ 2^31 - 1`) and worker budget `W ≥ 1` the number of rounds in
which workers are dispatched is `ceil(C / W)` where `C` is the number of bases claimed in the
run; `C` is at most the number of odd `b ≥ 3` with `b * b ≤ N`; and when each worker's writes
are visible to every later read of the scheduler, every claimed base is prime and `C` is at
most the number `P` of primes up to `sqrt N`, so that the number of dispatching rounds is at
most `ceil(P / W)`. -/
theorem C4_round_count (vis : Nat → Bool) (fuel N : Nat) (W : Int)
    (hN : 2 ≤ N) (hW : 1 ≤ W) (hR : N + ceilSqrt (N + 1) ≤ intMax) (hfuel : N + 1 ≤ fuel) :
    ∃ run, findPrimesParallelRun vis fuel N W = .ok run ∧
      dispatchRounds run = ceilDiv run.bases.length W.toNat ∧
      run.bases.length ≤ oddBaseCount N ∧
      dispatchRounds run ≤ ceilDiv (oddBaseCount N) W.toNat ∧
      ((∀ j, vis j = true) → (∀ b, b ∈ run.bases → Nat.Prime b) ∧
        run.bases.length ≤ basePrimeCount N ∧
        dispatchRounds run ≤ ceilDiv (basePrimeCount N) W.toNat) := by
  rw [findPrimesParallelRun_eq_exact vis fuel N W hR]
  obtain ⟨run, hrun, _, _, _, _, ⟨init, last, hr, hinit, hlast⟩, hpw, hbases, _⟩ :=
    Exact.findPrimesParallelRun_spec vis fuel N W hW hfuel
  obtain ⟨hd, _⟩ := Exact.dispatchRounds_eq hW hr hinit hlast
  have hodd : run.bases.length ≤ oddBaseCount N := by
    unfold oddBaseCount
    apply Exact.length_le_filter_range hpw
    intro x hx
    obtain ⟨h1, h2, h3, _⟩ := hbases x hx
    have hsq := (Exact.lt_ceilSqrt_iff N x).mp h2
    have hle := Exact.le_of_lt_ceilSqrt h2
    exact ⟨by omega, by simpa using ⟨h1, h3, hsq⟩⟩
  refine ⟨run, hrun, hd, hodd, ?_, ?_⟩
  · rw [hd]
    exact Exact.ceilDiv_mono _ hodd
  · intro hvis
    have hprime : run.bases.length ≤ basePrimeCount N := by
      unfold basePrimeCount
      apply Exact.length_le_filter_range hpw
      intro x hx
      obtain ⟨h1, h2, h3, h4⟩ := hbases x hx
      have hsq := (Exact.lt_ceilSqrt_iff N x).mp h2
      have hle := Exact.le_of_lt_ceilSqrt h2
      exact ⟨by omega, by simpa using ⟨hsq, h4 (hvis x)⟩⟩
    refine ⟨fun b hb => (hbases b hb).2.2.2 (hvis b), hprime, ?_⟩
    rw [hd]
    exact Exact.ceilDiv_mono _ hprime

/-- C4 amended, at `N = 289, W = 7`, every write visible to the scheduler. -/
theorem C4_round_count_witness :
    ∃ run, findPrimesParallelRun eager 290 289 7 = .ok run ∧
      dispatchRounds run = ceilDiv run.bases.length (7 : Int).toNat ∧
      run.bases.length ≤ oddBaseCount 289 ∧
      dispatchRounds run ≤ ceilDiv (oddBaseCount 289) (7 : Int).toNat ∧
      ((∀ j : Nat, eager j = true) → (∀ b, b ∈ run.bases → Nat.Prime b) ∧
        run.bases.length ≤ basePrimeCount 289 ∧
        dispatchRounds run ≤ ceilDiv (basePrimeCount 289) (7 : Int).toNat) :=
  C4_round_count eager 290 289 7 (by decide) (by decide) (by decide) (by decide)

/-- C5, as stated, fails: for `N = 30, W = 2` the first round dispatches the workers with
bases 3 and 5, and both write position 30. -/
theorem C5_counterexample :
    (findPrimesParallelRun eager 31 30 2).map
        (fun run => run.rounds.map RoundLog.started) = .ok [[3, 5], []] ∧
      workerWrites 31 3 30 = .ok [9, 12, 15, 18, 21, 24, 27, 30] ∧
      workerWrites 31 5 30 = .ok [25, 30] ∧
      30 ∈ [9, 12, 15, 18, 21, 24, 27, 30] ∧ 30 ∈ [25, 30] := by
  rw [findPrimesParallelRun_eq_exact eager 31 30 2 (by decide),
    workerWrites_eq_exact 31 3 30 (by decide) (by decide) (by decide),
    workerWrites_eq_exact 31 5 30 (by decide) (by decide) (by decide)]
  decide

/-- C5, amended: for every bound `N ≥ 2` within the `int` range
(`N + ceil(sqrt(N + 1)) ≤ 2^31 - 1`) and worker budget `W ≥ 1`, in every round the bases of
the workers are strictly increasing in slot order, hence pairwise different; each worker of
the round stores 0 at each position it writes and nothing else (on every array of `N + 1`
flags its result is the array with 0 stored at its positions); and for two workers of the
round with bases `a < b` the positions written by both are exactly the common multiples `m`
of `a` and `b` with `b * b ≤ m ≤ N`. -/
theorem C5_round_writes_overlap (vis : Nat → Bool) (fuel N : Nat) (W : Int)
    (hN : 2 ≤ N) (hW : 1 ≤ W) (hR : N + ceilSqrt (N + 1) ≤ intMax) (hfuel : N + 1 ≤ fuel) :
    ∃ run, findPrimesParallelRun vis fuel N W = .ok run ∧
      ∀ rd, rd ∈ run.rounds →
        List.Pairwise (fun a b => a < b) rd.started ∧
        ∀ a b, a ∈ rd.started → b ∈ rd.started → a < b →
          ∃ wa wb, workerWrites fuel a N = .ok wa ∧ workerWrites fuel b N = .ok wb ∧
            (∀ f : List Nat, f.length = N + 1 →
              computeMultiples fuel a N f = .ok (wa.foldl (fun acc k => acc.set k 0) f) ∧
              computeMultiples fuel b N f = .ok (wb.foldl (fun acc k => acc.set k 0) f)) ∧
            ∀ m, (m ∈ wa ∧ m ∈ wb) ↔ (b * b ≤ m ∧ m ≤ N ∧ a ∣ m ∧ b ∣ m) := by
  rw [findPrimesParallelRun_eq_exact vis fuel N W hR]
  have hN1 := succ_le_intMax hR
  obtain ⟨run, hrun, _, _, _, _, _, hpw, hbases, _⟩ :=
    Exact.findPrimesParallelRun_spec vis fuel N W hW hfuel
  refine ⟨run, hrun, ?_⟩
  intro rd hrd
  have hmemL : rd.started ∈ run.rounds.map RoundLog.started := List.mem_map.mpr ⟨rd, hrd, rfl⟩
  have hsub : rd.started.Sublist run.bases := List.sublist_flatten_of_mem hmemL
  refine ⟨hpw.sublist hsub, ?_⟩
  intro a b ha hb hab
  have ha3 := (hbases a (hsub.subset ha)).1
  have hasq := (Exact.lt_ceilSqrt_iff N a).mp (hbases a (hsub.subset ha)).2.1
  have hbsq := (Exact.lt_ceilSqrt_iff N b).mp (hbases b (hsub.subset hb)).2.1
  have haR := (hbases a (hsub.subset ha)).2.1
  have hbR := (hbases b (hsub.subset hb)).2.1
  rw [workerWrites_eq_exact fuel a N (by omega) hN1 (by omega),
    workerWrites_eq_exact fuel b N (by omega) hN1 (by omega)]
  obtain ⟨wa, hwa, hma⟩ := Exact.workerWrites_spec fuel a N (by omega) hfuel
  obtain ⟨wb, hwb, hmb⟩ := Exact.workerWrites_spec fuel b N (by omega) hfuel
  refine ⟨wa, wb, hwa, hwb, ?_, ?_⟩
  · intro f hf
    rw [computeMultiples_eq_exact fuel a N f (by omega) hN1 (by omega),
      computeMultiples_eq_exact fuel b N f (by omega) hN1 (by omega)]
    exact ⟨Exact.computeMultiplesLoop_eq_foldl a N fuel (a * a) f wa hf hwa,
      Exact.computeMultiplesLoop_eq_foldl b N fuel (b * b) f wb hf hwb⟩
  intro m
  rw [hma m, hmb m]
  constructor
  · rintro ⟨⟨_, _, h3⟩, ⟨h4, h5, h6⟩⟩
    exact ⟨h4, h5, h3, h6⟩
  · rintro ⟨h1, h2, h3, h4⟩
    have : a * a ≤ b * b := Nat.mul_le_mul (le_of_lt hab) (le_of_lt hab)
    exact ⟨⟨by omega, h2, h3⟩, ⟨h1, h2, h4⟩⟩

/-- C5 amended, at `N = 30, W = 2`. -/
theorem C5_round_writes_overlap_witness :
    ∃ run, findPrimesParallelRun eager 31 30 2 = .ok run ∧
      ∀ rd, rd ∈ run.rounds →
        List.Pairwise (fun a b => a < b) rd.started ∧
        ∀ a b, a ∈ rd.started → b ∈ rd.started → a < b →
          ∃ wa wb, workerWrites 31 a 30 = .ok wa ∧ workerWrites 31 b 30 = .ok wb ∧
            (∀ f : List Nat, f.length = 30 + 1 →
              computeMultiples 31 a 30 f = .ok (wa.foldl (fun acc k => acc.set k 0) f) ∧
              computeMultiples 31 b 30 f = .ok (wb.foldl (fun acc k => acc.set k 0) f)) ∧
            ∀ m, (m ∈ wa ∧ m ∈ wb) ↔ (b * b ≤ m ∧ m ≤ 30 ∧ a ∣ m ∧ b ∣ m) :=
  C5_round_writes_overlap eager 31 30 2 (by decide) (by decide) (by decide) (by decide)

/-- C7: for a worker budget `W ≤ 0` the code does not do what the claim says: the slot loop
runs no iteration, `done` is never set, and the round loop never stops (no amount of fuel
lets `findPrimesParallel` return). -/
theorem C7_no_budget_never_returns (vis : Nat → Bool) (fuel N : Nat) (W : Int) (hW : W ≤ 0) :
    findPrimesParallel vis fuel N W = .error .outOfFuel := by
  unfold findPrimesParallel findPrimesParallelRun
  rw [roundLoop_no_budget vis fuel N W hW]

/-- C7, at `largest_number = 10`, `num_threads = 0`, with fuel for a million rounds. -/
theorem C7_no_budget_never_returns_witness :
    findPrimesParallel eager 1000000 10 0 = .error .outOfFuel :=
  C7_no_budget_never_returns eager 1000000 10 0 (by decide)

/-- C8: with three arguments, whenever the `int` parsed as `largest_number` is at most 1, `main`
aborts at its assertion, whatever the other argument, the schedule and the fuel, so neither
`findPrimesParallel` nor `printPrimes` contributes; whenever it is above 1 the assertion
passes and the computation runs: with a worker budget of at least 1 and a bound `N` within the
`int` range (`N + ceil(sqrt(N + 1)) ≤ 2^31 - 1`) it prints the primes up to the bound and
their count, with a budget of at most 0 it never returns. -/
theorem C8_bound_assertion (atoi : String → Int) (vis : Nat → Bool) (fuel : Nat)
    (argv : List String) (hargc : argv.length = 3) :
    (wrapInt (atoi (argv.getD 1 "")) ≤ 1 → main atoi vis fuel argv = .assertionFailed) ∧
    (1 < wrapInt (atoi (argv.getD 1 "")) →
      main atoi vis fuel argv ≠ .assertionFailed ∧ main atoi vis fuel argv ≠ .usage ∧
      (1 ≤ wrapInt (atoi (argv.getD 2 "")) →
        (wrapInt (atoi (argv.getD 1 ""))).toNat +
          ceilSqrt ((wrapInt (atoi (argv.getD 1 ""))).toNat + 1) ≤ intMax →
        (wrapInt (atoi (argv.getD 1 ""))).toNat + 1 ≤ fuel →
        main atoi vis fuel argv =
          .finished (primesUpTo (wrapInt (atoi (argv.getD 1 ""))).toNat)
            (primesUpTo (wrapInt (atoi (argv.getD 1 ""))).toNat).length) ∧
      (wrapInt (atoi (argv.getD 2 "")) ≤ 0 → main atoi vis fuel argv = .fault .outOfFuel)) := by
  have hargs : ¬ (argv.length < 3 ∨ argv.length > 3) := by omega
  constructor
  · intro h
    have h1 : ¬ (wrapInt (atoi (argv.getD 1 "")) > 1) := by omega
    simp only [main, hargs, if_false, h1, not_false_eq_true, if_true]
  · intro h
    have h1 : ¬ ¬ (wrapInt (atoi (argv.getD 1 "")) > 1) := by omega
    have hmain : main atoi vis fuel argv =
        match findPrimesParallel vis fuel (wrapInt (atoi (argv.getD 1 ""))).toNat
            (wrapInt (atoi (argv.getD 2 ""))) with
        | .error f => .fault f
        | .ok numbers =>
          match printPrimes fuel numbers (wrapInt (wrapInt (atoi (argv.getD 1 "")) + 1)) with
          | .error f => .fault f
          | .ok (printed, count) => .finished printed count := by
      simp only [main, hargs, if_false, h1]
    refine ⟨?_, ?_, ?_, ?_⟩
    · rw [hmain]
      split
      · simp
      · split <;> simp
    · rw [hmain]
      split
      · simp
      · split <;> simp
    · intro hW hR hfuel
      have hN : 2 ≤ (wrapInt (atoi (argv.getD 1 ""))).toNat := by omega
      have hnat : (((wrapInt (atoi (argv.getD 1 ""))).toNat : Nat) : Int) =
          wrapInt (atoi (argv.getD 1 "")) := Int.toNat_of_nonneg (by omega)
      have hcast := wrapInt_succ (succ_le_intMax hR)
      rw [hnat] at hcast
      obtain ⟨run, hrun, hs, hc, hc', _⟩ := Exact.findPrimesParallelRun_spec vis fuel _ _ hW hfuel
      obtain ⟨hprint, _⟩ := Exact.printPrimes_final hN hs hc hc' hfuel
      rw [hmain, findPrimesParallel_eq_exact _ _ _ _ hR, Exact.findPrimesParallel_of_run hrun]
      simp only [hcast, printPrimes_eq_exact, hprint]
    · intro hW
      have hloop : findPrimesParallel vis fuel (wrapInt (atoi (argv.getD 1 ""))).toNat
          (wrapInt (atoi (argv.getD 2 ""))) = .error .outOfFuel := by
        unfold findPrimesParallel findPrimesParallelRun
        rw [roundLoop_no_budget vis fuel _ _ hW]
      rw [hmain, hloop]

/-- C8, on the command lines `./sieve abc 4` (a non-numeric bound parses to 0 and the
assertion aborts the run) and `./sieve 30 2`. -/
theorem C8_bound_assertion_witness :
    atoiC "abc" = 0 ∧
    main atoiC eager 31 ["./sieve", "abc", "4"] = .assertionFailed ∧
    main atoiC eager 31 ["./sieve", "30", "2"] =
      .finished [2, 3, 5, 7, 11, 13, 17, 19, 23, 29] 10 := by
  refine ⟨by decide, ?_, ?_⟩
  · exact (C8_bound_assertion atoiC eager 31 ["./sieve", "abc", "4"] rfl).1
      (by decide)
  · have h := ((C8_bound_assertion atoiC eager 31 ["./sieve", "30", "2"] rfl).2
      (by decide)).2.2.1 (by decide) (by decide) (by decide)
    rw [h]
    decide

/-- C12, as stated, fails: for `N = 100, W = 4`, when the workers of a round take effect only
at the join, the first round claims the bases 3, 5, 7 and 9, and 9 is not prime. -/
theorem C12_counterexample :
    (findPrimesParallelRun deferred 101 100 4).map Run.bases = .ok [3, 5, 7, 9] ∧
      ¬ Nat.Prime 9 := by
  rw [findPrimesParallelRun_eq_exact deferred 101 100 4 (by decide)]
  decide

/-- C12, amended: for every bound `N ≥ 2` within the `int` range
(`N + ceil(sqrt(N + 1)) ≤ 2^31 - 1`) and worker budget `W ≥ 1`, every base claimed is an
odd number `b ≥ 3` below `ceil(sqrt(N + 1))`, that is with `b * b ≤ N`; every odd prime
below that bound is claimed; a base is prime whenever the read that claimed it saw the
writes of the workers created before it, and when that holds for every read the bases are
exactly the odd primes `p` with `p * p ≤ N`. -/
theorem C12_bases_claimed (vis : Nat → Bool) (fuel N : Nat) (W : Int)
    (hN : 2 ≤ N) (hW : 1 ≤ W) (hR : N + ceilSqrt (N + 1) ≤ intMax) (hfuel : N + 1 ≤ fuel) :
    ∃ run, findPrimesParallelRun vis fuel N W = .ok run ∧
      (∀ b, b ∈ run.bases → 3 ≤ b ∧ b % 2 = 1 ∧ b < ceilSqrt (N + 1) ∧ b * b ≤ N ∧
        (vis b = true → Nat.Prime b)) ∧
      (∀ p, Nat.Prime p → p % 2 = 1 → p * p ≤ N → p ∈ run.bases) ∧
      ((∀ j, vis j = true) →
        ∀ b, b ∈ run.bases ↔ (Nat.Prime b ∧ b % 2 = 1 ∧ b * b ≤ N)) := by
  rw [findPrimesParallelRun_eq_exact vis fuel N W hR]
  obtain ⟨run, hrun, _, _, _, _, _, _, hbases, _⟩ :=
    Exact.findPrimesParallelRun_spec vis fuel N W hW hfuel
  have hall : ∀ b, b ∈ run.bases → 3 ≤ b ∧ b % 2 = 1 ∧ b < ceilSqrt (N + 1) ∧ b * b ≤ N ∧
      (vis b = true → Nat.Prime b) := by
    intro b hb
    obtain ⟨h1, h2, h3, h4⟩ := hbases b hb
    exact ⟨h1, h3, h2, (Exact.lt_ceilSqrt_iff N b).mp h2, h4⟩
  have hprimes : ∀ p, Nat.Prime p → p % 2 = 1 → p * p ≤ N → p ∈ run.bases :=
    fun p hp hodd hsq => Exact.odd_primes_claimed vis fuel N W hW hfuel hrun hp hodd hsq
  refine ⟨run, hrun, hall, hprimes, ?_⟩
  intro hvis b
  constructor
  · intro hb
    obtain ⟨_, h2, _, h4, h5⟩ := hall b hb
    exact ⟨h5 (hvis b), h2, h4⟩
  · rintro ⟨h1, h2, h3⟩
    exact hprimes b h1 h2 h3

/-- C12 amended, at `N = 100, W = 4` with the writes taking effect at the join. -/
theorem C12_bases_claimed_witness :
    ∃ run, findPrimesParallelRun deferred 101 100 4 = .ok run ∧
      (∀ b, b ∈ run.bases → 3 ≤ b ∧ b % 2 = 1 ∧ b < ceilSqrt (100 + 1) ∧ b * b ≤ 100 ∧
        (deferred b = true → Nat.Prime b)) ∧
      (∀ p, Nat.Prime p → p % 2 = 1 → p * p ≤ 100 → p ∈ run.bases) ∧
      ((∀ j, deferred j = true) →
        ∀ b, b ∈ run.bases ↔ (Nat.Prime b ∧ b % 2 = 1 ∧ b * b ≤ 100)) :=
  C12_bases_claimed deferred 101 100 4 (by decide) (by decide) (by decide) (by decide)

/-- C13, as stated, fails: for `N = 30, W = 2` the scheduler reads position 5 in the first
round while the worker with base 3, created in the same round, has not been joined. -/
theorem C13_counterexample :
    (findPrimesParallelRun eager 31 30 2).map (fun run => run.rounds.map RoundLog.reads) =
      .ok [[(3, 0), (5, 1)], []] ∧
      ¬ (∀ jk, jk ∈ [((3 : Nat), (0 : Nat)), (5, 1)] → jk.2 = 0) := by
  rw [findPrimesParallelRun_eq_exact eager 31 30 2 (by decide)]
  decide

/-- C13, amended: for every bound `N ≥ 2` within the `int` range
(`N + ceil(sqrt(N + 1)) ≤ 2^31 - 1`) and worker budget `W ≥ 1`, in every round the first
read of the scheduler happens with no worker in flight, and a read of position `j` happens
with as many workers of the round in flight as the round has bases below `j`: the workers of
a round are created between the scans of its slots and joined after the last scan of the
round. -/
theorem C13_reads_and_workers (vis : Nat → Bool) (fuel N : Nat) (W : Int)
    (hN : 2 ≤ N) (hW : 1 ≤ W) (hR : N + ceilSqrt (N + 1) ≤ intMax) (hfuel : N + 1 ≤ fuel) :
    ∃ run, findPrimesParallelRun vis fuel N W = .ok run ∧
      ∀ rd, rd ∈ run.rounds →
        (∀ j k, (j, k) ∈ rd.reads →
          k = (rd.started.filter (fun x => decide (x < j))).length ∧
          k ≤ rd.started.length) ∧
        (∀ j k rest, rd.reads = (j, k) :: rest → k = 0) := by
  rw [findPrimesParallelRun_eq_exact vis fuel N W hR]
  obtain ⟨run, hrun, _⟩ := Exact.findPrimesParallelRun_spec vis fuel N W hW hfuel
  obtain ⟨_, _, _, _, hrounds⟩ := Exact.findPrimesParallelRun_trace vis fuel N W hW hfuel hrun
  refine ⟨run, hrun, ?_⟩
  intro rd hrd
  obtain ⟨hsorted, hmem, htag⟩ := hrounds rd hrd
  constructor
  · intro j k hjk
    refine ⟨htag j k hjk, ?_⟩
    rw [htag j k hjk]
    exact List.length_filter_le _ _
  · intro j k rest hreads
    rw [htag j k (by rw [hreads]; simp)]
    rw [hreads, List.map_cons, List.pairwise_cons] at hsorted
    have hnone : rd.started.filter (fun x => decide (x < j)) = [] := by
      rw [List.filter_eq_nil_iff]
      intro x hx
      simp only [decide_eq_true_eq, not_lt]
      have hxr := hmem x hx
      rw [hreads, List.map_cons] at hxr
      rcases List.mem_cons.mp hxr with h | h
      · exact le_of_eq h.symm
      · exact le_of_lt (hsorted.1 x h)
    rw [hnone]
    rfl

/-- C13 amended, at `N = 30, W = 2`. -/
theorem C13_reads_and_workers_witness :
    ∃ run, findPrimesParallelRun eager 31 30 2 = .ok run ∧
      ∀ rd, rd ∈ run.rounds →
        (∀ j k, (j, k) ∈ rd.reads →
          k = (rd.started.filter (fun x => decide (x < j))).length ∧
          k ≤ rd.started.length) ∧
        (∀ j k rest, rd.reads = (j, k) :: rest → k = 0) :=
  C13_reads_and_workers eager 31 30 2 (by decide) (by decide) (by decide) (by decide)

/-- C14, as stated, fails: for `N = 30, W = 4` there is a single round; it dispatches the
workers with bases 3 and 5 and the loop stops after it. -/
theorem C14_counterexample :
    (findPrimesParallelRun eager 31 30 4).map (fun run => run.rounds.map RoundLog.started) =
      .ok [[3, 5]] ∧ ([3, 5] : List Nat).length ≠ 0 := by
  rw [findPrimesParallelRun_eq_exact eager 31 30 4 (by decide)]
  decide

/-- C14, amended: for every bound `N ≥ 2` within the `int` range
(`N + ceil(sqrt(N + 1)) ≤ 2^31 - 1`) and worker budget `W ≥ 1`, the round after which the
loop stops is the round that dispatches fewer than `W` workers (a slot found no base), and
every round that dispatches `W` workers is followed by another round. -/
theorem C14_last_round (vis : Nat → Bool) (fuel N : Nat) (W : Int)
    (hN : 2 ≤ N) (hW : 1 ≤ W) (hR : N + ceilSqrt (N + 1) ≤ intMax) (hfuel : N + 1 ≤ fuel) :
    ∃ run, findPrimesParallelRun vis fuel N W = .ok run ∧
      ∀ pre rd post, run.rounds = pre ++ rd :: post →
        (rd.started.length : Int) ≤ W ∧ (post = [] ↔ (rd.started.length : Int) < W) := by
  rw [findPrimesParallelRun_eq_exact vis fuel N W hR]
  obtain ⟨run, hrun, _, _, _, _, ⟨init, last, hr, hinit, hlast⟩, _⟩ :=
    Exact.findPrimesParallelRun_spec vis fuel N W hW hfuel
  refine ⟨run, hrun, ?_⟩
  intro pre rd post hsplit
  have hcases : (post = [] ∧ rd = last) ∨ (post ≠ [] ∧ rd ∈ init) := by
    by_cases hpost : post = []
    · left
      refine ⟨hpost, ?_⟩
      subst hpost
      have h := hsplit.symm.trans hr
      have h2 : (pre ++ [rd]).getLast? = (init ++ [last]).getLast? := by rw [h]
      simpa using h2
    · right
      exact ⟨hpost, Exact.mem_of_split_before_last pre post init rd last (hsplit.symm.trans hr) hpost⟩
  rcases hcases with ⟨h1, h2⟩ | ⟨h1, h2⟩
  · subst h2
    exact ⟨by omega, by simp [h1, hlast]⟩
  · have := hinit rd h2
    refine ⟨by omega, ?_⟩
    constructor
    · intro h; exact absurd h h1
    · intro h; omega

/-- C14 amended, at `N = 30, W = 4`. -/
theorem C14_last_round_witness :
    ∃ run, findPrimesParallelRun eager 31 30 4 = .ok run ∧
      ∀ pre rd post, run.rounds = pre ++ rd :: post →
        (rd.started.length : Int) ≤ 4 ∧ (post = [] ↔ (rd.started.length : Int) < 4) :=
  C14_last_round eager 31 30 4 (by decide) (by decide) (by decide) (by decide)

end Sieve
